import Mathlib

/-!
Verification of logrus_kinesis: a shallow embedding of `hook.go` and `config.go`

The Go sources are translated function by function.  Conventions:

* a Go `map[string]T` is an association list; indexing reads the first binding
  of a key, assignment puts a new binding in front, and `range` visits every
  distinct key once together with the value indexing returns for it;
* a Go `interface{}` value is a `Value`: either a value of a predeclared type
  (`Prim`) or a value of a named type carrying the methods the type switch in
  `formatData` asks about;
* a Go `error` result is an `Option String` (`none` is `nil`);
* `[]byte` is a `String`, the nil slice being the empty string;
* the process environment is a function from variable names to values
  (`os.Getenv` gives `""` for an unset variable);
* the AWS SDK and `encoding/json` are external libraries; the parts of them the
  hook calls are modelled next to the call sites and say so.
-/

set_option autoImplicit false

namespace LogrusKinesis

/-! ## Dynamic values and maps -/

/-- Values of predeclared Go types that can sit in an `interface{}`.
`null` is the nil interface value, `chan` stands for the kinds
`encoding/json` refuses to encode (channels, functions). -/
inductive Prim where
  | null
  | str (s : String)
  | int (n : Int)
  | bool (b : Bool)
  | chan
  deriving DecidableEq, Repr

/-- Method set of a named type, as far as `formatData` and `encoding/json`
look at it.  `marshalJSON = some r` means the type implements
`json.Marshaler` and `MarshalJSON()` gives `r` (`none` for an error);
`error = some s` means it implements `error` with `Error() = s`;
`string = some s` means it implements `fmt.Stringer` with `String() = s`.
The capability `encoding.TextMarshaler` is not part of the model. -/
structure Methods where
  marshalJSON : Option (Option String)
  error : Option String
  string : Option String
  deriving DecidableEq, Repr

/-- A Go `interface{}` value. -/
inductive Value where
  | prim (p : Prim)
  | named (m : Methods) (underlying : Prim)
  deriving DecidableEq, Repr

/-- The `logrus.Fields` type, `map[string]interface{}`. -/
abbrev Fields := List (String × Value)

/-- Comma-ok map read `v, ok := m[k]`: the first binding of `k`. -/
def mapGet {β : Type} : List (String × β) → String → Option β
  | [], _ => none
  | (k', v) :: rest, k => if k' = k then some v else mapGet rest k

/-- Map assignment `m[k] = v`. -/
def mapSet {β : Type} (m : List (String × β)) (k : String) (v : β) : List (String × β) :=
  (k, v) :: m

/-- Builtin `delete(m, k)`. -/
def mapDelete {β : Type} (m : List (String × β)) (k : String) : List (String × β) :=
  m.filter (fun p => decide (p.1 ≠ k))

/-- Distinct keys of a map. -/
def mapKeys {β : Type} (m : List (String × β)) : List String :=
  (m.map Prod.fst).dedup

/-- The pairs a `range` loop over the map visits: every distinct key once. -/
def mapRange {β : Type} (m : List (String × β)) : List (String × β) :=
  (mapKeys m).filterMap (fun k => (mapGet m k).map (fun v => (k, v)))

/-- Plain map read `m[k]` on a `map[string]interface{}`: a missing key reads
as the nil interface value. -/
def index (m : Fields) (k : String) : Value :=
  (mapGet m k).getD (Value.prim Prim.null)

/-- Type assertion `v.(string)`: succeeds only when the dynamic type is
exactly `string`. -/
def assertString : Value → Option String
  | Value.prim (Prim.str s) => some s
  | _ => none

/-! ## The hook (`hook.go`) -/

/-- The `logrus.Level` severities. -/
inductive Level where
  | PanicLevel | FatalLevel | ErrorLevel | WarnLevel | InfoLevel | DebugLevel
  deriving DecidableEq, Repr

/-- The fields of `logrus.Entry` the hook reads. -/
structure Entry where
  Message : String
  Data : Fields

/-- The `credentials.Credentials` sources the repository constructs. -/
inductive Credentials where
  | env
  | static (id secret token : String)
  | shared (filename profile : String)
  deriving DecidableEq, Repr

/-- The fields of `aws.Config` the repository sets (pointer fields are
options). -/
structure AWSConfig where
  Credentials : Option Credentials
  Region : Option String
  Endpoint : Option String
  deriving DecidableEq, Repr

/-- An SDK session, holding the configuration it was created from. -/
structure Session where
  config : Option AWSConfig
  deriving DecidableEq, Repr

/-- The `kinesis.Kinesis` client handle, `kinesis.New(sess)`. -/
structure Kinesis where
  sess : Session
  deriving DecidableEq, Repr

/-- The `kinesis.PutRecordInput` fields the hook fills in. -/
structure PutRecordInput where
  StreamName : String
  PartitionKey : String
  Data : String
  deriving DecidableEq, Repr

/-- Package variable `defaultLevels`. -/
def defaultLevels : List Level :=
  [Level.PanicLevel, Level.FatalLevel, Level.ErrorLevel, Level.WarnLevel, Level.InfoLevel]

/-- The `KinesisHook` struct.  A registered filter is the total function it
computes (a nil or panicking filter is outside the model); `ignoreFields`
is the Go set idiom `map[string]struct{}`. -/
structure KinesisHook where
  client : Kinesis
  defaultStreamName : String
  defaultPartitionKey : String
  async : Bool
  levels : List Level
  ignoreFields : List (String × Unit)
  filters : List (String × (Value → Value))

/-- The method `(h *KinesisHook) getStreamName`. -/
def getStreamName (h : KinesisHook) (entry : Entry) : String :=
  match assertString (index entry.Data "stream_name") with
  | some name => name
  | none => h.defaultStreamName

/-- The method `(h *KinesisHook) getPartitionKey`. -/
def getPartitionKey (h : KinesisHook) (entry : Entry) : String :=
  match assertString (index entry.Data "partition_key") with
  | some key => key
  | none =>
    if h.defaultPartitionKey ≠ "" then h.defaultPartitionKey
    else entry.Message

/-! ### `encoding/json` as called by `getData`

`json.Marshal` on a `map[string]interface{}` writes the keys in sorted order
and fails as a whole when one value cannot be encoded. -/

/-- Lower-case hexadecimal digit. -/
def hexDigit (n : Nat) : Char :=
  if n < 10 then Char.ofNat (48 + n) else Char.ofNat (87 + n)

/-- The backslash character. -/
def backslash : Char := Char.ofNat 92

/-- The double quote character. -/
def dquote : Char := Char.ofNat 34

/-- Escaping of one character inside a JSON string, as `json.Marshal` does it
(`appendString` with HTML escaping on): quote and backslash get a backslash,
backspace, form feed, newline, carriage return and tab their short forms,
other control characters and `<`, `>`, `&`, U+2028, U+2029 the six-character
`\uXXXX` form. -/
def escapeRune (c : Char) : List Char :=
  let n := c.toNat
  if n = 34 then [backslash, dquote]
  else if n = 92 then [backslash, backslash]
  else if n = 8 then [backslash, 'b']
  else if n = 12 then [backslash, 'f']
  else if n = 10 then [backslash, 'n']
  else if n = 13 then [backslash, 'r']
  else if n = 9 then [backslash, 't']
  else if n < 32 ∨ n = 60 ∨ n = 62 ∨ n = 38 then
    [backslash, 'u', '0', '0', hexDigit (n / 16), hexDigit (n % 16)]
  else if n = 8232 then [backslash, 'u', '2', '0', '2', '8']
  else if n = 8233 then [backslash, 'u', '2', '0', '2', '9']
  else [c]

/-- JSON encoding of a Go string. -/
def jsonString (s : String) : String :=
  String.mk (dquote :: ((s.toList.map escapeRune).flatten ++ [dquote]))

/-- JSON encoding of a value of a predeclared type; `none` is
`UnsupportedTypeError`. -/
def encodePrim : Prim → Option String
  | Prim.null => some "null"
  | Prim.str s => some (jsonString s)
  | Prim.int n => some (toString n)
  | Prim.bool b => some (if b then "true" else "false")
  | Prim.chan => none

/-! ### Validation and compaction of a marshaler's output

`json.Marshal` passes the bytes a `json.Marshaler` returns through the
package's scanner: text that is not one JSON value is an error, insignificant
white space is dropped, and `<`, `>`, `&`, U+2028, U+2029 are written as
`\uXXXX`.  The scanner below follows `scanner.go` state by state. -/

/-- The step functions of the scanner (`stateBeginValue`, `stateInString`,
...). -/
inductive ScanState where
  | beginValueOrEmpty | beginValue | beginStringOrEmpty | beginString
  | endValue | endTop
  | inString | inStringEsc | inStringEscU | inStringEscU1 | inStringEscU12 | inStringEscU123
  | neg | one | zero | dot | dot0 | exp | expSign | exp0
  | t | tr | tru | f | fa | fal | fals | n | nu | nul
  | error
  deriving DecidableEq, Repr

/-- Entries of the scanner's parse stack. -/
inductive ParseState where
  | objectKey | objectValue | arrayValue
  deriving DecidableEq, Repr

/-- The scanner: current step function, parse stack (innermost first), whether
the top-level value has ended, whether an error has been recorded. -/
structure Scanner where
  step : ScanState
  parseState : List ParseState
  endTop : Bool
  err : Bool
  deriving DecidableEq, Repr

/-- What the caller does with the byte just scanned: `keep` stands for the
codes below `scanSkipSpace`, `skip` for `scanSkipSpace` and `scanEnd`. -/
inductive ScanCode where
  | keep | skip | error
  deriving DecidableEq, Repr

/-- Function `newScanner` followed by `reset`. -/
def newScanner : Scanner :=
  { step := ScanState.beginValue, parseState := [], endTop := false, err := false }

/-- Constant `maxNestingDepth`. -/
def maxNestingDepth : Nat := 10000

/-- Function `isSpace`: space, tab, carriage return, newline. -/
def isSpace (c : Char) : Bool :=
  c.toNat = 32 || c.toNat = 9 || c.toNat = 13 || c.toNat = 10

/-- Decimal digit test `'0' <= c && c <= '9'`. -/
def isDigit09 (c : Char) : Bool :=
  decide (48 ≤ c.toNat) && decide (c.toNat ≤ 57)

/-- Hexadecimal digit test of `stateInStringEscU`. -/
def isHexDigit (c : Char) : Bool :=
  isDigit09 c || (decide (97 ≤ c.toNat) && decide (c.toNat ≤ 102))
    || (decide (65 ≤ c.toNat) && decide (c.toNat ≤ 70))

/-- Method `scanner.error`: record the error, go to `stateError`. -/
def scanFail (s : Scanner) : Scanner × ScanCode :=
  ({ s with step := ScanState.error, err := true }, ScanCode.error)

/-- Continue in the given state. -/
def scanTo (s : Scanner) (next : ScanState) : Scanner × ScanCode :=
  ({ s with step := next }, ScanCode.keep)

/-- Method `pushParseState`. -/
def pushParseState (s : Scanner) (p : ParseState) : Scanner × ScanCode :=
  let s' := { s with parseState := p :: s.parseState }
  if s'.parseState.length ≤ maxNestingDepth then (s', ScanCode.keep)
  else scanFail s'

/-- Method `popParseState`. -/
def popParseState (s : Scanner) : Scanner :=
  match s.parseState with
  | [] => s
  | _ :: rest =>
    match rest with
    | [] => { s with parseState := rest, step := ScanState.endTop, endTop := true }
    | _ :: _ => { s with parseState := rest, step := ScanState.endValue }

/-- Function `stateEndTop`: a byte that is not white space records an error
and still returns `scanEnd`. -/
def stateEndTop (s : Scanner) (c : Char) : Scanner × ScanCode :=
  if isSpace c then (s, ScanCode.skip)
  else ({ s with step := ScanState.error, err := true }, ScanCode.skip)

/-- Function `stateEndValue`. -/
def stateEndValue (s : Scanner) (c : Char) : Scanner × ScanCode :=
  match s.parseState with
  | [] => stateEndTop { s with step := ScanState.endTop, endTop := true } c
  | ps :: rest =>
    if isSpace c then ({ s with step := ScanState.endValue }, ScanCode.skip)
    else
      match ps with
      | ParseState.objectKey =>
        if c.toNat = 58 then
          ({ s with parseState := ParseState.objectValue :: rest, step := ScanState.beginValue },
            ScanCode.keep)
        else scanFail s
      | ParseState.objectValue =>
        if c.toNat = 44 then
          ({ s with parseState := ParseState.objectKey :: rest, step := ScanState.beginString },
            ScanCode.keep)
        else if c.toNat = 125 then (popParseState s, ScanCode.keep)
        else scanFail s
      | ParseState.arrayValue =>
        if c.toNat = 44 then scanTo s ScanState.beginValue
        else if c.toNat = 93 then (popParseState s, ScanCode.keep)
        else scanFail s

/-- Function `stateBeginValue`. -/
def stateBeginValue (s : Scanner) (c : Char) : Scanner × ScanCode :=
  if isSpace c then (s, ScanCode.skip)
  else if c.toNat = 123 then
    pushParseState { s with step := ScanState.beginStringOrEmpty } ParseState.objectKey
  else if c.toNat = 91 then
    pushParseState { s with step := ScanState.beginValueOrEmpty } ParseState.arrayValue
  else if c.toNat = 34 then scanTo s ScanState.inString
  else if c = '-' then scanTo s ScanState.neg
  else if c = '0' then scanTo s ScanState.zero
  else if c = 't' then scanTo s ScanState.t
  else if c = 'f' then scanTo s ScanState.f
  else if c = 'n' then scanTo s ScanState.n
  else if decide (49 ≤ c.toNat) && decide (c.toNat ≤ 57) then scanTo s ScanState.one
  else scanFail s

/-- Function `stateBeginString`. -/
def stateBeginString (s : Scanner) (c : Char) : Scanner × ScanCode :=
  if isSpace c then (s, ScanCode.skip)
  else if c.toNat = 34 then scanTo s ScanState.inString
  else scanFail s

/-- Function `state0`. -/
def state0 (s : Scanner) (c : Char) : Scanner × ScanCode :=
  if c = '.' then scanTo s ScanState.dot
  else if c = 'e' ∨ c = 'E' then scanTo s ScanState.exp
  else stateEndValue s c

/-- Function `stateESign`. -/
def stateESign (s : Scanner) (c : Char) : Scanner × ScanCode :=
  if isDigit09 c then scanTo s ScanState.exp0 else scanFail s

/-- Expect one letter of a literal and go on to the next state. -/
def expectLetter (s : Scanner) (c want : Char) (next : ScanState) : Scanner × ScanCode :=
  if c = want then scanTo s next else scanFail s

/-- Expect a hexadecimal digit and go on to the next state. -/
def expectHex (s : Scanner) (c : Char) (next : ScanState) : Scanner × ScanCode :=
  if isHexDigit c then scanTo s next else scanFail s

/-- The call `s.step(s, c)`. -/
def scanStep (s : Scanner) (c : Char) : Scanner × ScanCode :=
  match s.step with
  | ScanState.beginValueOrEmpty =>
    if isSpace c then (s, ScanCode.skip)
    else if c.toNat = 93 then stateEndValue s c
    else stateBeginValue s c
  | ScanState.beginValue => stateBeginValue s c
  | ScanState.beginStringOrEmpty =>
    if isSpace c then (s, ScanCode.skip)
    else if c.toNat = 125 then
      match s.parseState with
      | [] => stateEndValue s c
      | _ :: rest => stateEndValue { s with parseState := ParseState.objectValue :: rest } c
    else stateBeginString s c
  | ScanState.beginString => stateBeginString s c
  | ScanState.endValue => stateEndValue s c
  | ScanState.endTop => stateEndTop s c
  | ScanState.inString =>
    if c.toNat = 34 then scanTo s ScanState.endValue
    else if c.toNat = 92 then scanTo s ScanState.inStringEsc
    else if c.toNat < 32 then scanFail s
    else (s, ScanCode.keep)
  | ScanState.inStringEsc =>
    if c = 'b' ∨ c = 'f' ∨ c = 'n' ∨ c = 'r' ∨ c = 't' ∨ c.toNat = 92 ∨ c.toNat = 47
        ∨ c.toNat = 34 then
      scanTo s ScanState.inString
    else if c = 'u' then scanTo s ScanState.inStringEscU
    else scanFail s
  | ScanState.inStringEscU => expectHex s c ScanState.inStringEscU1
  | ScanState.inStringEscU1 => expectHex s c ScanState.inStringEscU12
  | ScanState.inStringEscU12 => expectHex s c ScanState.inStringEscU123
  | ScanState.inStringEscU123 => expectHex s c ScanState.inString
  | ScanState.neg =>
    if c = '0' then scanTo s ScanState.zero
    else if decide (49 ≤ c.toNat) && decide (c.toNat ≤ 57) then scanTo s ScanState.one
    else scanFail s
  | ScanState.one =>
    if isDigit09 c then scanTo s ScanState.one else state0 s c
  | ScanState.zero => state0 s c
  | ScanState.dot =>
    if isDigit09 c then scanTo s ScanState.dot0 else scanFail s
  | ScanState.dot0 =>
    if isDigit09 c then (s, ScanCode.keep)
    else if c = 'e' ∨ c = 'E' then scanTo s ScanState.exp
    else stateEndValue s c
  | ScanState.exp =>
    if c = '+' ∨ c = '-' then scanTo s ScanState.expSign else stateESign s c
  | ScanState.expSign => stateESign s c
  | ScanState.exp0 =>
    if isDigit09 c then (s, ScanCode.keep) else stateEndValue s c
  | ScanState.t => expectLetter s c 'r' ScanState.tr
  | ScanState.tr => expectLetter s c 'u' ScanState.tru
  | ScanState.tru => expectLetter s c 'e' ScanState.endValue
  | ScanState.f => expectLetter s c 'a' ScanState.fa
  | ScanState.fa => expectLetter s c 'l' ScanState.fal
  | ScanState.fal => expectLetter s c 's' ScanState.fals
  | ScanState.fals => expectLetter s c 'e' ScanState.endValue
  | ScanState.n => expectLetter s c 'u' ScanState.nu
  | ScanState.nu => expectLetter s c 'l' ScanState.nul
  | ScanState.nul => expectLetter s c 'l' ScanState.endValue
  | ScanState.error => (s, ScanCode.error)

/-- Method `scanner.eof`, as a success test. -/
def scanEOF (s : Scanner) : Bool :=
  if s.err then false
  else if s.endTop then true
  else (scanStep s ' ').1.endTop

/-- What `appendCompact` writes for one source character with HTML escaping
on, given the scanner's code for it. -/
def compactEmit (c : Char) (code : ScanCode) : List Char :=
  let n := c.toNat
  if n = 60 ∨ n = 62 ∨ n = 38 then
    [backslash, 'u', '0', '0', hexDigit (n / 16), hexDigit (n % 16)]
  else if n = 8232 then [backslash, 'u', '2', '0', '2', '8']
  else if n = 8233 then [backslash, 'u', '2', '0', '2', '9']
  else
    match code with
    | ScanCode.keep => [c]
    | ScanCode.skip => []
    | ScanCode.error => []

/-- The loop of `appendCompact`: it stops at the first scan error. -/
def compactLoop (s : Scanner) : List Char → Scanner × List Char
  | [] => (s, [])
  | c :: cs =>
    let r := scanStep s c
    match r.2 with
    | ScanCode.error => (r.1, [])
    | code =>
      let rest := compactLoop r.1 cs
      (rest.1, compactEmit c code ++ rest.2)

/-- Function `appendCompact` with `escape` set, on an empty destination;
`none` is a syntax error. -/
def compact (src : String) : Option String :=
  let r := compactLoop newScanner src.toList
  if scanEOF r.1 then some (String.mk r.2) else none

/-- JSON encoding of an interface value: a `json.Marshaler` is asked for its
own encoding, which is validated and compacted (an error of `MarshalJSON` or
invalid text is an error of the whole call); any other value is encoded by
its underlying kind. -/
def encodeValue : Value → Option String
  | Value.prim p => encodePrim p
  | Value.named m p =>
    match m.marshalJSON with
    | some r =>
      match r with
      | some bytes => compact bytes
      | none => none
    | none => encodePrim p

/-- Lexicographic comparison of character sequences. -/
def lessChars : List Char → List Char → Bool
  | [], [] => false
  | [], _ :: _ => true
  | _ :: _, [] => false
  | a :: as, b :: bs =>
    if a < b then true else if b < a then false else lessChars as bs

/-- Go's `<` on strings, the order in which `encoding/json` writes map keys. -/
def keyLess (a b : String) : Bool :=
  lessChars a.toList b.toList

/-- Insertion of a key into a sorted key list. -/
def insertKey (k : String) : List String → List String
  | [] => [k]
  | k' :: rest => if keyLess k k' then k :: k' :: rest else k' :: insertKey k rest

/-- Keys in increasing order. -/
def sortKeys : List String → List String
  | [] => []
  | k :: rest => insertKey k (sortKeys rest)

/-- The members `json.Marshal` writes for a map: one per distinct key, in
sorted key order, each with the encoding of its value. -/
def encodeMembers (m : Fields) : List String → Option (List (String × String))
  | [] => some []
  | k :: ks =>
    match encodeValue (index m k) with
    | none => none
    | some js =>
      match encodeMembers m ks with
      | none => none
      | some rest => some ((k, js) :: rest)

/-- The JSON object `json.Marshal` produces for a map, as its list of
members (key and encoded value). -/
def jsonMembers (m : Fields) : Option (List (String × String)) :=
  encodeMembers m (sortKeys (mapKeys m))

/-- One member of a JSON object, `"key":value`. -/
def renderMember (p : String × String) : String :=
  jsonString p.1 ++ ":" ++ p.2

/-- Text of a JSON object with the given members. -/
def renderObject (members : List (String × String)) : String :=
  "\x7b" ++ ",".intercalate (members.map renderMember) ++ "\x7d"

/-- The call `json.Marshal(data)` for `data` of type `logrus.Fields`; `none`
is a non-nil error. -/
def jsonMarshal (m : Fields) : Option String :=
  (jsonMembers m).map renderObject

/-! ### A reader for flat JSON objects

Independent of the encoder above: it reads back the text of an object whose
values are strings, integers, `true`, `false` or `null`, following the JSON
grammar (no white space, as `json.Marshal` writes none). -/

/-- The opening brace. -/
def lbrace : Char := Char.ofNat 123

/-- The closing brace. -/
def rbrace : Char := Char.ofNat 125

/-- Value of a hexadecimal digit. -/
def hexValue (c : Char) : Option Nat :=
  let n := c.toNat
  if 48 ≤ n ∧ n ≤ 57 then some (n - 48)
  else if 97 ≤ n ∧ n ≤ 102 then some (n - 87)
  else if 65 ≤ n ∧ n ≤ 70 then some (n - 55)
  else none

/-- The character a two-character escape stands for. -/
def unescapeLetter (e : Char) : Option Char :=
  if e.toNat = 34 then some dquote
  else if e.toNat = 92 then some backslash
  else if e.toNat = 47 then some (Char.ofNat 47)
  else if e = 'b' then some (Char.ofNat 8)
  else if e = 'f' then some (Char.ofNat 12)
  else if e = 'n' then some (Char.ofNat 10)
  else if e = 'r' then some (Char.ofNat 13)
  else if e = 't' then some (Char.ofNat 9)
  else none

/-- Where the string reader stands: in plain text, after a backslash, or
inside a `\uXXXX` escape with `left` digits to come and `acc` read so far. -/
inductive StrMode where
  | plain
  | esc
  | hex (left acc : Nat)
  deriving DecidableEq, Repr

/-- Read the inside of a JSON string up to the closing quote, one character
at a time: the characters it denotes and the rest of the input.  Escapes of
surrogate halves are not accepted. -/
def readCharsAux : StrMode → List Char → Option (List Char × List Char)
  | _, [] => none
  | StrMode.plain, c :: cs =>
    if c.toNat = 34 then some ([], cs)
    else if c.toNat = 92 then readCharsAux StrMode.esc cs
    else if c.toNat < 32 then none
    else (readCharsAux StrMode.plain cs).map (fun r => (c :: r.1, r.2))
  | StrMode.esc, e :: cs =>
    if e = 'u' then readCharsAux (StrMode.hex 4 0) cs
    else
      match unescapeLetter e with
      | some x => (readCharsAux StrMode.plain cs).map (fun r => (x :: r.1, r.2))
      | none => none
  | StrMode.hex left acc, c :: cs =>
    match hexValue c with
    | none => none
    | some v =>
      if left ≤ 1 then
        if left = 0 ∨ (55296 ≤ acc * 16 + v ∧ acc * 16 + v ≤ 57343) then none
        else
          (readCharsAux StrMode.plain cs).map (fun r => (Char.ofNat (acc * 16 + v) :: r.1, r.2))
      else readCharsAux (StrMode.hex (left - 1) (acc * 16 + v)) cs

/-- Read the inside of a JSON string, starting after the opening quote. -/
def readChars (cs : List Char) : Option (List Char × List Char) :=
  readCharsAux StrMode.plain cs

/-- Read decimal digits: the number they denote after `acc`, and the rest. -/
def readNat : Nat → List Char → Nat × List Char
  | acc, [] => (acc, [])
  | acc, c :: cs =>
    if isDigit09 c then readNat (acc * 10 + (c.toNat - 48)) cs
    else (acc, c :: cs)

/-- Read one value of a flat object and give the rest of the input. -/
def readValue : List Char → Option (Value × List Char)
  | [] => none
  | c :: cs =>
    if c.toNat = 34 then
      (readChars cs).map (fun r => (Value.prim (Prim.str (String.mk r.1)), r.2))
    else if c = '-' then
      match cs with
      | [] => none
      | d :: _ =>
        if isDigit09 d then
          some (Value.prim (Prim.int (-((readNat 0 cs).1 : Int))), (readNat 0 cs).2)
        else none
    else if isDigit09 c then
      some (Value.prim (Prim.int ((readNat 0 (c :: cs)).1 : Int)), (readNat 0 (c :: cs)).2)
    else if (c :: cs).take 4 = ['n', 'u', 'l', 'l'] then
      some (Value.prim Prim.null, (c :: cs).drop 4)
    else if (c :: cs).take 4 = ['t', 'r', 'u', 'e'] then
      some (Value.prim (Prim.bool true), (c :: cs).drop 4)
    else if (c :: cs).take 5 = ['f', 'a', 'l', 's', 'e'] then
      some (Value.prim (Prim.bool false), (c :: cs).drop 5)
    else none

/-- Read the members of a non-empty object up to and including the closing
brace, which must end the input; `fuel` bounds the number of members. -/
def readMembers : Nat → List Char → Option (List (String × Value))
  | 0, _ => none
  | fuel + 1, cs =>
    match cs with
    | [] => none
    | q :: cs1 =>
      if q.toNat = 34 then
        match readChars cs1 with
        | none => none
        | some (k, cs2) =>
          match cs2 with
          | [] => none
          | colon :: cs3 =>
            if colon = ':' then
              match readValue cs3 with
              | none => none
              | some (v, cs4) =>
                match cs4 with
                | [] => none
                | d :: cs5 =>
                  if d = ',' then
                    (readMembers fuel cs5).map (fun ms => (String.mk k, v) :: ms)
                  else if d.toNat = 125 ∧ cs5 = [] then some [(String.mk k, v)]
                  else none
            else none
      else none

/-- Read the text of a flat JSON object: its members in the order written. -/
def readObject (text : String) : Option (List (String × Value)) :=
  match text.toList with
  | [] => none
  | c :: cs =>
    if c.toNat = 123 then
      if cs = [rbrace] then some [] else readMembers cs.length cs
    else none

/-! ### `getData` and `formatData` -/

/-- The function `formatData`: a type switch with the cases
`json.Marshaler`, `error`, `fmt.Stringer`, default, in this order. -/
def formatData (value : Value) : Value :=
  match value with
  | Value.named m _ =>
    match m.marshalJSON with
    | some _ => value
    | none =>
      match m.error with
      | some e => Value.prim (Prim.str e)
      | none =>
        match m.string with
        | some s => Value.prim (Prim.str s)
        | none => value
  | Value.prim _ => value

/-- First statement of `getData`: `entry.Data["message"]` is set to the
entry's message unless the key is present. -/
def ensureMessage (entry : Entry) : Entry :=
  match mapGet entry.Data "message" with
  | some _ => entry
  | none =>
    { entry with Data := mapSet entry.Data "message" (Value.prim (Prim.str entry.Message)) }

/-- The value the loop of `getData` stores for a field it does not skip:
the filter's result when a filter is registered under the field's name, the
default formatting otherwise. -/
def storedValue (h : KinesisHook) (k : String) (v : Value) : Value :=
  match mapGet h.filters k with
  | some fn => fn v
  | none => formatData v

/-- State of the loop of `getData`: the map `data` under construction and the
filter invocations made so far (field name and argument). -/
structure LoopState where
  data : Fields
  calls : List (String × Value)

/-- One iteration of the loop of `getData`. -/
def getDataStep (h : KinesisHook) (st : LoopState) (kv : String × Value) : LoopState :=
  match mapGet h.ignoreFields kv.1 with
  | some _ => st
  | none =>
    match mapGet h.filters kv.1 with
    | some fn =>
      { data := mapSet st.data kv.1 (fn kv.2), calls := st.calls ++ [(kv.1, kv.2)] }
    | none =>
      { data := mapSet st.data kv.1 (formatData kv.2), calls := st.calls }

/-- The loop of `getData`, run over the entry's fields after the message
default has been put in. -/
def getDataLoop (h : KinesisHook) (entry : Entry) : LoopState :=
  (mapRange (ensureMessage entry).Data).foldl (getDataStep h) { data := [], calls := [] }

/-- The method `(h *KinesisHook) getData`. -/
def getData (h : KinesisHook) (entry : Entry) : String :=
  match jsonMarshal (getDataLoop h entry).data with
  | some bytes => bytes
  | none => ""

/-- The method `(h *KinesisHook) fire`; `putRecord` is the service call
`client.PutRecord`, of which only the returned error is used. -/
def fire (putRecord : Kinesis → PutRecordInput → Option String)
    (h : KinesisHook) (entry : Entry) : Option String :=
  let input : PutRecordInput :=
    { StreamName := getStreamName h entry
      PartitionKey := getPartitionKey h entry
      Data := getData h entry }
  putRecord h.client input

/-- What a call of `Fire` leaves behind: the returned error and the entries
for which a goroutine `go h.fire(entry)` was started. -/
structure FireResult where
  err : Option String
  detached : List Entry

/-- The method `(h *KinesisHook) Fire`. -/
def Fire (putRecord : Kinesis → PutRecordInput → Option String)
    (h : KinesisHook) (entry : Entry) : FireResult :=
  if !h.async then
    { err := fire putRecord h entry, detached := [] }
  else
    { err := none, detached := [entry] }

/-- The method `(h *KinesisHook) Levels`. -/
def Levels (h : KinesisHook) : List Level :=
  h.levels

/-- The method `(h *KinesisHook) SetLevels`. -/
def SetLevels (h : KinesisHook) (levels : List Level) : KinesisHook :=
  { h with levels := levels }

/-- The method `(h *KinesisHook) SetPartitionKey`. -/
def SetPartitionKey (h : KinesisHook) (key : String) : KinesisHook :=
  { h with defaultPartitionKey := key }

/-- The method `(h *KinesisHook) Async`. -/
def Async (h : KinesisHook) : KinesisHook :=
  { h with async := true }

/-- The method `(h *KinesisHook) AddIgnore`. -/
def AddIgnore (h : KinesisHook) (name : String) : KinesisHook :=
  { h with ignoreFields := mapSet h.ignoreFields name () }

/-- The method `(h *KinesisHook) AddFilter`. -/
def AddFilter (h : KinesisHook) (name : String) (fn : Value → Value) : KinesisHook :=
  { h with filters := mapSet h.filters name fn }

/-! ## Configuration (`config.go`) -/

/-- The process environment as `os.Getenv` sees it. -/
abbrev Env := String → String

/-- Constant `defaultRegion`. -/
def defaultRegion : String := "us-east-1"

/-- The `Config` struct. -/
structure Config where
  AccessKey : String
  SecretKey : String
  Region : String
  Endpoint : String
  deriving DecidableEq, Repr

/-- The SDK's `credentials.Value`. -/
structure CredValue where
  AccessKeyID : String
  SecretAccessKey : String
  SessionToken : String
  ProviderName : String
  deriving DecidableEq, Repr

/-- The SDK's `EnvProvider.Retrieve`: access key from `AWS_ACCESS_KEY_ID`
or else `AWS_ACCESS_KEY`, secret from `AWS_SECRET_ACCESS_KEY` or else
`AWS_SECRET_KEY`; an error when either is empty. -/
def envRetrieve (env : Env) : Except String CredValue :=
  let id := if env "AWS_ACCESS_KEY_ID" = "" then env "AWS_ACCESS_KEY" else env "AWS_ACCESS_KEY_ID"
  let secret :=
    if env "AWS_SECRET_ACCESS_KEY" = "" then env "AWS_SECRET_KEY" else env "AWS_SECRET_ACCESS_KEY"
  if id = "" then Except.error "EnvAccessKeyNotFound"
  else if secret = "" then Except.error "EnvSecretNotFound"
  else
    Except.ok
      { AccessKeyID := id
        SecretAccessKey := secret
        SessionToken := env "AWS_SESSION_TOKEN"
        ProviderName := "EnvProvider" }

/-- The SDK's `StaticProvider.Retrieve`: an error when the access key or the
secret is empty. -/
def staticRetrieve (id secret token : String) : Except String CredValue :=
  if id = "" ∨ secret = "" then Except.error "EmptyStaticCreds"
  else
    Except.ok
      { AccessKeyID := id
        SecretAccessKey := secret
        SessionToken := token
        ProviderName := "StaticProvider" }

/-- The SDK's `Credentials.Get` on a fresh credentials object; `sharedFile`
is what reading the shared credentials file gives for a file name and a
profile. -/
def credentialsGet (env : Env) (sharedFile : String → String → Except String CredValue) :
    Credentials → Except String CredValue
  | Credentials.env => envRetrieve env
  | Credentials.static id secret token => staticRetrieve id secret token
  | Credentials.shared filename profile => sharedFile filename profile

/-- Function `envRegion`. -/
def envRegion (env : Env) : String :=
  env "AWS_REGION"

/-- Function `envEndpoint`. -/
def envEndpoint (env : Env) : String :=
  env "AWS_ENDPOINT"

/-- The method `(c Config) awsCredentials`. -/
def Config.awsCredentials (c : Config) (env : Env)
    (sharedFile : String → String → Except String CredValue) : Credentials :=
  let cred := Credentials.env
  match credentialsGet env sharedFile cred with
  | Except.ok _ => cred
  | Except.error _ =>
    let cred := Credentials.static c.AccessKey c.SecretKey ""
    match credentialsGet env sharedFile cred with
    | Except.ok _ => cred
    | Except.error _ => Credentials.shared "" ""

/-- The method `(c Config) getRegion`. -/
def Config.getRegion (c : Config) (env : Env) : String :=
  if c.Region ≠ "" then c.Region
  else
    let reg := envRegion env
    if reg ≠ "" then reg
    else defaultRegion

/-- The method `(c Config) getEndpoint`. -/
def Config.getEndpoint (c : Config) (env : Env) : String :=
  if c.Endpoint ≠ "" then c.Endpoint
  else
    let ep := envEndpoint env
    if ep ≠ "" then ep
    else ""

/-- The method `(c Config) AWSConfig`. -/
def Config.AWSConfig (c : Config) (env : Env)
    (sharedFile : String → String → Except String CredValue) : AWSConfig :=
  let cred := c.awsCredentials env sharedFile
  let awsConf : LogrusKinesis.AWSConfig :=
    { Credentials := some cred, Region := some (c.getRegion env), Endpoint := none }
  let ep := c.getEndpoint env
  if ep ≠ "" then { awsConf with Endpoint := some ep } else awsConf

/-! ## Constructors (`hook.go`) -/

/-- Function `New`; `newSession` is the SDK's `session.NewSession`. -/
def New (newSession : Option AWSConfig → Except String Session) (env : Env)
    (sharedFile : String → String → Except String CredValue)
    (name : String) (conf : Config) : Except String KinesisHook :=
  match newSession (some (conf.AWSConfig env sharedFile)) with
  | Except.error err => Except.error err
  | Except.ok sess =>
    Except.ok
      { client := { sess := sess }
        defaultStreamName := name
        defaultPartitionKey := ""
        async := false
        levels := defaultLevels
        ignoreFields := []
        filters := [] }

/-- Function `NewWithAWSConfig`.  The struct literal in the source sets
`client`, `levels`, `ignoreFields` and `filters`; the remaining fields keep
their zero values. -/
def NewWithAWSConfig (newSession : Option AWSConfig → Except String Session)
    (name : String) (conf : Option AWSConfig) : Except String KinesisHook :=
  let _ := name
  match newSession conf with
  | Except.error err => Except.error err
  | Except.ok sess =>
    Except.ok
      { client := { sess := sess }
        defaultStreamName := ""
        defaultPartitionKey := ""
        async := false
        levels := defaultLevels
        ignoreFields := []
        filters := [] }

/-! ## Auxiliary notions used in the statements -/

/-- Method set of the dynamic type of a value; predeclared types have no
methods. -/
def methodSet : Value → Methods
  | Value.prim _ => { marshalJSON := none, error := none, string := none }
  | Value.named m _ => m

/-- Whether a credential retrieval succeeded. -/
def validates (r : Except String CredValue) : Bool :=
  match r with
  | Except.ok _ => true
  | Except.error _ => false

/-- Values of the predeclared types `string` and `int`. -/
def isPlain : Value → Bool
  | Value.prim (Prim.str _) => true
  | Value.prim (Prim.int _) => true
  | _ => false

/-- Characters of one rendered member, `"key":value`. -/
def memberChars (p : String × String) : List Char :=
  (jsonString p.1).data ++ ':' :: p.2.data

/-- Characters between the braces of a rendered object. -/
def bodyChars : List (String × String) → List Char
  | [] => []
  | m :: ms => memberChars m ++ (ms.map (fun p => ',' :: memberChars p)).flatten

/-- A member text and a field that belong together: same key, and the text
reads back as the field's value before any input that does not go on with a
digit. -/
def readsAs (member : String × String) (field : String × Value) : Prop :=
  member.1 = field.1 ∧
    ∀ rest : List Char, (∀ c ∈ rest.head?, isDigit09 c = false) →
      readValue (member.2.data ++ rest) = some (field.2, rest)

/-- Values of predeclared types that `encoding/json` can encode. -/
def isReadable : Value → Bool
  | Value.prim Prim.chan => false
  | Value.prim _ => true
  | Value.named _ _ => false

/-! ## Sample data -/

/-- A `session.NewSession` that always succeeds. -/
def okSession (conf : Option AWSConfig) : Except String Session :=
  Except.ok { config := conf }

/-- An empty environment, as after `os.Clearenv()`. -/
def clearEnv : Env := fun _ => ""

/-- An environment with the two AWS credential variables and the region. -/
def awsEnv : Env := fun name =>
  if name = "AWS_ACCESS_KEY_ID" then "env_access_key"
  else if name = "AWS_SECRET_ACCESS_KEY" then "env_secret_key"
  else if name = "AWS_REGION" then "env_region"
  else ""

/-- A machine without a shared credentials file. -/
def noSharedFile : String → String → Except String CredValue :=
  fun _ _ => Except.error "SharedCredsLoad"

/-- A configuration with an explicit key pair. -/
def keyConfig : Config :=
  { AccessKey := "access_key", SecretKey := "secret_key", Region := "", Endpoint := "" }

/-- A client on a session without configuration. -/
def sampleClient : Kinesis :=
  { sess := { config := none } }

/-- A hook with default stream name and partition key and no rules. -/
def sampleHook : KinesisHook :=
  { client := sampleClient
    defaultStreamName := "default_stream"
    defaultPartitionKey := "default_key"
    async := false
    levels := defaultLevels
    ignoreFields := []
    filters := [] }

/-- The zero-valued hook of the tests, `KinesisHook{}` with empty maps. -/
def zeroHook : KinesisHook :=
  { client := sampleClient
    defaultStreamName := ""
    defaultPartitionKey := ""
    async := false
    levels := []
    ignoreFields := []
    filters := [] }

/-- The entry of `TestGetData` with the fields name, price and color. -/
def appleEntry : Entry :=
  { Message := "entry_message"
    Data :=
      [("name", Value.prim (Prim.str "apple")),
       ("price", Value.prim (Prim.int 105)),
       ("color", Value.prim (Prim.str "red"))] }

/-- A put-record call that always fails. -/
def failingPut : Kinesis → PutRecordInput → Option String :=
  fun _ _ => some "ResourceNotFoundException"

/-- A filter that replaces every value by a mask. -/
def maskFilter : Value → Value :=
  fun _ => Value.prim (Prim.str "***")

/-- A hook that ignores "price" and has filters for "price" and "name". -/
def ruleHook : KinesisHook :=
  AddFilter (AddFilter (AddIgnore zeroHook "price") "price" maskFilter) "name" maskFilter

/-- The entry of the first row of `TestGetData`: no fields. -/
def bareEntry : Entry :=
  { Message := "entry_message", Data := [] }

/-- An entry with a field holding a channel. -/
def chanEntry : Entry :=
  { Message := "entry_message", Data := [("done", Value.prim Prim.chan)] }

/-- The apple entry with one more field, holding a channel. -/
def chanAppleEntry : Entry :=
  { Message := "entry_message"
    Data :=
      [("done", Value.prim Prim.chan),
       ("name", Value.prim (Prim.str "apple")),
       ("price", Value.prim (Prim.int 105)),
       ("color", Value.prim (Prim.str "red"))] }

/-! ## Lemmas on maps -/

theorem mapGet_eq_none_of_not_mem {β : Type} (m : List (String × β)) (k : String)
    (hk : k ∉ m.map Prod.fst) : mapGet m k = none := by
  induction m with
  | nil => rfl
  | cons p rest ih =>
    obtain ⟨k', v⟩ := p
    simp only [List.map_cons, List.mem_cons, not_or] at hk
    have hne : ¬ k' = k := fun e => hk.1 e.symm
    simp only [mapGet, hne, if_false]
    exact ih hk.2

theorem mapGet_isSome_iff {β : Type} (m : List (String × β)) (k : String) :
    (mapGet m k).isSome = true ↔ k ∈ m.map Prod.fst := by
  induction m with
  | nil => simp [mapGet]
  | cons p rest ih =>
    obtain ⟨k', v⟩ := p
    by_cases hk : k' = k
    · simp [mapGet, hk]
    · have hk2 : ¬ k = k' := fun e => hk e.symm
      simp [mapGet, hk, hk2, ih]

theorem mem_of_mapGet_eq_some {β : Type} (m : List (String × β)) (k : String) (v : β)
    (hv : mapGet m k = some v) : (k, v) ∈ m := by
  induction m with
  | nil => simp [mapGet] at hv
  | cons p rest ih =>
    obtain ⟨k', w⟩ := p
    by_cases hk : k' = k
    · simp only [mapGet, hk, if_true, Option.some.injEq] at hv
      simp [hk, hv]
    · simp only [mapGet, hk, if_false] at hv
      exact List.mem_cons_of_mem _ (ih hv)

theorem mapGet_mapDelete_self {β : Type} (m : List (String × β)) (k : String) :
    mapGet (mapDelete m k) k = none := by
  apply mapGet_eq_none_of_not_mem
  simp [mapDelete, List.mem_filter]

theorem mem_mapKeys {β : Type} (m : List (String × β)) (k : String) :
    k ∈ mapKeys m ↔ (mapGet m k).isSome = true := by
  rw [mapGet_isSome_iff]
  simp [mapKeys]

theorem nodup_mapKeys {β : Type} (m : List (String × β)) : (mapKeys m).Nodup :=
  List.nodup_dedup _

theorem mapGet_filterMap_keys {β : Type} (m : List (String × β)) (ks : List String) (k : String) :
    mapGet (ks.filterMap (fun k => (mapGet m k).map (fun v => (k, v)))) k
      = if k ∈ ks then mapGet m k else none := by
  induction ks with
  | nil => simp [mapGet]
  | cons k0 rest ih =>
    cases h0 : mapGet m k0 with
    | none =>
      simp only [List.filterMap_cons, h0, Option.map_none']
      rw [ih]
      by_cases hk : k = k0
      · subst hk
        simp [h0]
      · simp [hk]
    | some v =>
      simp only [List.filterMap_cons, h0, Option.map_some']
      by_cases hk : k0 = k
      · subst hk
        simp [mapGet, h0]
      · have hk2 : ¬ k = k0 := fun e => hk e.symm
        simp only [mapGet, hk, if_false, List.mem_cons, hk2, false_or]
        exact ih

theorem mapGet_mapRange {β : Type} (m : List (String × β)) (k : String) :
    mapGet (mapRange m) k = mapGet m k := by
  unfold mapRange
  rw [mapGet_filterMap_keys]
  by_cases hk : k ∈ mapKeys m
  · simp [hk]
  · simp only [hk, if_false]
    rw [mem_mapKeys] at hk
    cases h : mapGet m k with
    | none => rfl
    | some v => simp [h] at hk

theorem keys_filterMap_keys {β : Type} (m : List (String × β)) (ks : List String) :
    (ks.filterMap (fun k => (mapGet m k).map (fun v => (k, v)))).map Prod.fst
      = ks.filter (fun k => (mapGet m k).isSome) := by
  induction ks with
  | nil => rfl
  | cons k0 rest ih =>
    cases h0 : mapGet m k0 with
    | none => simp [List.filterMap_cons, List.filter_cons, h0, ih]
    | some v => simp [List.filterMap_cons, List.filter_cons, h0, ih]

theorem nodup_keys_mapRange {β : Type} (m : List (String × β)) :
    ((mapRange m).map Prod.fst).Nodup := by
  unfold mapRange
  rw [keys_filterMap_keys]
  exact (nodup_mapKeys m).filter _

/-! ## Lemmas on the loop of `getData` -/

theorem getDataStep_data_ne (h : KinesisHook) (st : LoopState) (k0 k : String) (v0 : Value)
    (hne : ¬ k0 = k) : mapGet (getDataStep h st (k0, v0)).data k = mapGet st.data k := by
  unfold getDataStep
  cases mapGet h.ignoreFields k0 with
  | some u => rfl
  | none =>
    cases mapGet h.filters k0 with
    | some fn => simp [mapSet, mapGet, hne]
    | none => simp [mapSet, mapGet, hne]

theorem getDataStep_data_self (h : KinesisHook) (st : LoopState) (k : String) (v : Value) :
    mapGet (getDataStep h st (k, v)).data k =
      if (mapGet h.ignoreFields k).isSome then mapGet st.data k
      else some (storedValue h k v) := by
  unfold getDataStep storedValue
  cases mapGet h.ignoreFields k with
  | some u => simp
  | none =>
    cases mapGet h.filters k with
    | some fn => simp [mapSet, mapGet]
    | none => simp [mapSet, mapGet]

theorem loop_data (h : KinesisHook) (k : String) :
    ∀ (l : List (String × Value)) (st : LoopState), (l.map Prod.fst).Nodup →
      mapGet (l.foldl (getDataStep h) st).data k =
        match mapGet l k with
        | none => mapGet st.data k
        | some v =>
          if (mapGet h.ignoreFields k).isSome then mapGet st.data k
          else some (storedValue h k v) := by
  intro l
  induction l with
  | nil => intro st _; rfl
  | cons p rest ih =>
    intro st hnd
    obtain ⟨k0, v0⟩ := p
    simp only [List.map_cons, List.nodup_cons] at hnd
    rw [List.foldl_cons, ih _ hnd.2]
    by_cases hk : k0 = k
    · subst hk
      rw [mapGet_eq_none_of_not_mem rest k0 hnd.1]
      simp only [mapGet, if_true]
      exact getDataStep_data_self h st k0 v0
    · simp only [mapGet, hk, if_false]
      rw [getDataStep_data_ne h st k0 k v0 hk]

theorem getDataStep_calls (h : KinesisHook) (st : LoopState) (p q : String × Value)
    (hq : q ∈ (getDataStep h st p).calls) :
    q ∈ st.calls ∨
      (q = p ∧ mapGet h.ignoreFields q.1 = none ∧ (mapGet h.filters q.1).isSome = true) := by
  unfold getDataStep at hq
  cases hi : mapGet h.ignoreFields p.1 with
  | some u =>
    rw [hi] at hq
    exact Or.inl hq
  | none =>
    rw [hi] at hq
    cases hf : mapGet h.filters p.1 with
    | some fn =>
      rw [hf] at hq
      simp only [List.mem_append, List.mem_singleton] at hq
      rcases hq with hq | hq
      · exact Or.inl hq
      · subst hq
        exact Or.inr ⟨rfl, hi, by simp [hf]⟩
    | none =>
      rw [hf] at hq
      exact Or.inl hq

theorem loop_calls (h : KinesisHook) (q : String × Value) :
    ∀ (l : List (String × Value)) (st : LoopState),
      q ∈ (l.foldl (getDataStep h) st).calls →
      q ∈ st.calls ∨
        (q ∈ l ∧ mapGet h.ignoreFields q.1 = none ∧ (mapGet h.filters q.1).isSome = true) := by
  intro l
  induction l with
  | nil => intro st hq; exact Or.inl hq
  | cons p rest ih =>
    intro st hq
    rw [List.foldl_cons] at hq
    rcases ih _ hq with h1 | ⟨h1, h2, h3⟩
    · rcases getDataStep_calls h st p q h1 with h4 | ⟨h4, h5, h6⟩
      · exact Or.inl h4
      · exact Or.inr ⟨by simp [h4], h5, h6⟩
    · exact Or.inr ⟨List.mem_cons_of_mem _ h1, h2, h3⟩

theorem mapGet_ensureMessage (entry : Entry) (k : String) :
    mapGet (ensureMessage entry).Data k =
      if k = "message" then
        some ((mapGet entry.Data "message").getD (Value.prim (Prim.str entry.Message)))
      else mapGet entry.Data k := by
  unfold ensureMessage
  cases hm : mapGet entry.Data "message" with
  | some v =>
    by_cases hk : k = "message"
    · subst hk
      simp [hm]
    · simp [hk]
  | none =>
    by_cases hk : k = "message"
    · subst hk
      simp [mapSet, mapGet]
    · have hk2 : ¬ "message" = k := fun e => hk e.symm
      simp [mapSet, mapGet, hk, hk2]

theorem getDataLoop_data (h : KinesisHook) (entry : Entry) (k : String) :
    mapGet (getDataLoop h entry).data k =
      match mapGet (ensureMessage entry).Data k with
      | none => none
      | some v =>
        if (mapGet h.ignoreFields k).isSome then none
        else some (storedValue h k v) := by
  unfold getDataLoop
  rw [loop_data h k _ _ (nodup_keys_mapRange _), mapGet_mapRange]
  rfl

theorem getDataLoop_calls (h : KinesisHook) (entry : Entry) (q : String × Value)
    (hq : q ∈ (getDataLoop h entry).calls) :
    mapGet h.ignoreFields q.1 = none ∧ (mapGet h.filters q.1).isSome = true := by
  unfold getDataLoop at hq
  rcases loop_calls h q _ _ hq with h1 | ⟨_, h2, h3⟩
  · simp at h1
  · exact ⟨h2, h3⟩

/-! ## Lemmas on key order and on `json.Marshal` -/

theorem lessChars_iff : ∀ (a b : List Char), lessChars a b = true ↔ a < b := by
  intro a
  induction a with
  | nil =>
    intro b
    cases b with
    | nil => simp [lessChars]
    | cons y ys => simp [lessChars, List.nil_lt_cons]
  | cons x xs ih =>
    intro b
    cases b with
    | nil =>
      simp only [lessChars, Bool.false_eq_true, false_iff]
      exact List.Lex.not_nil_right _ _
    | cons y ys =>
      simp only [lessChars]
      by_cases hxy : x < y
      · simp only [hxy, if_true, true_iff]
        exact List.Lex.rel hxy
      · by_cases hyx : y < x
        · simp only [hxy, hyx, if_false, if_true, Bool.false_eq_true, false_iff]
          intro hlt
          cases hlt with
          | cons hrest => exact lt_irrefl _ hyx
          | rel hr => exact hxy hr
        · have hEq : x = y := le_antisymm (not_lt.mp hyx) (not_lt.mp hxy)
          subst hEq
          simp only [hxy, if_false, ih]
          constructor
          · intro hrest
            exact List.Lex.cons hrest
          · intro hlt
            cases hlt with
            | cons hrest => exact hrest
            | rel hr => exact absurd hr hxy

theorem keyLess_iff (a b : String) : keyLess a b = true ↔ a < b := by
  unfold keyLess
  rw [lessChars_iff, String.lt_iff_toList_lt]

theorem mem_insertKey (k x : String) (l : List String) :
    x ∈ insertKey k l ↔ x = k ∨ x ∈ l := by
  induction l with
  | nil => simp [insertKey]
  | cons k' rest ih =>
    unfold insertKey
    cases hlt : keyLess k k' with
    | true => simp
    | false =>
      simp only [Bool.false_eq_true, if_false, List.mem_cons, ih]
      tauto

theorem mem_sortKeys (x : String) (l : List String) : x ∈ sortKeys l ↔ x ∈ l := by
  induction l with
  | nil => simp [sortKeys]
  | cons k rest ih => simp [sortKeys, mem_insertKey, ih]

theorem sorted_insertKey (k : String) (l : List String) (hs : List.Sorted (· < ·) l)
    (hk : k ∉ l) : List.Sorted (· < ·) (insertKey k l) := by
  induction l with
  | nil => simp [insertKey]
  | cons k' rest ih =>
    rw [List.sorted_cons] at hs
    simp only [List.mem_cons, not_or] at hk
    unfold insertKey
    cases hlt : keyLess k k' with
    | true =>
      simp only [if_true]
      have hkk : k < k' := (keyLess_iff k k').mp hlt
      rw [List.sorted_cons]
      refine ⟨?_, List.sorted_cons.mpr hs⟩
      intro b hb
      rcases List.mem_cons.mp hb with hb | hb
      · rw [hb]; exact hkk
      · exact lt_trans hkk (hs.1 b hb)
    | false =>
      simp only [Bool.false_eq_true, if_false]
      have hnlt : ¬ k < k' := fun hc => by
        rw [(keyLess_iff k k').mpr hc] at hlt
        exact Bool.noConfusion hlt
      have hkk : k' < k := lt_of_le_of_ne (not_lt.mp hnlt) (fun e => hk.1 e.symm)
      rw [List.sorted_cons]
      refine ⟨?_, ih hs.2 hk.2⟩
      intro b hb
      rcases (mem_insertKey k b rest).mp hb with hb | hb
      · rw [hb]; exact hkk
      · exact hs.1 b hb

theorem sorted_sortKeys (l : List String) (hnd : l.Nodup) :
    List.Sorted (· < ·) (sortKeys l) := by
  induction l with
  | nil => simp [sortKeys]
  | cons k rest ih =>
    rw [List.nodup_cons] at hnd
    unfold sortKeys
    exact sorted_insertKey k _ (ih hnd.2) (fun hc => hnd.1 ((mem_sortKeys k rest).mp hc))

theorem encodeMembers_keys (m : Fields) :
    ∀ (ks : List String) (members : List (String × String)),
      encodeMembers m ks = some members → members.map Prod.fst = ks := by
  intro ks
  induction ks with
  | nil =>
    intro members hm
    simp only [encodeMembers, Option.some.injEq] at hm
    subst hm
    rfl
  | cons k rest ih =>
    intro members hm
    unfold encodeMembers at hm
    cases hv : encodeValue (index m k) with
    | none => simp [hv] at hm
    | some js =>
      cases hr : encodeMembers m rest with
      | none => simp [hv, hr] at hm
      | some tail =>
        simp only [hv, hr, Option.some.injEq] at hm
        subst hm
        simp [ih tail hr]

theorem encodeMembers_mem (m : Fields) (k : String) (js : String) :
    ∀ (ks : List String) (members : List (String × String)),
      encodeMembers m ks = some members →
      ((k, js) ∈ members ↔ k ∈ ks ∧ encodeValue (index m k) = some js) := by
  intro ks
  induction ks with
  | nil =>
    intro members hm
    simp only [encodeMembers, Option.some.injEq] at hm
    subst hm
    simp
  | cons k0 rest ih =>
    intro members hm
    unfold encodeMembers at hm
    cases hv : encodeValue (index m k0) with
    | none => simp [hv] at hm
    | some js0 =>
      cases hr : encodeMembers m rest with
      | none => simp [hv, hr] at hm
      | some tail =>
        simp only [hv, hr, Option.some.injEq] at hm
        subst hm
        simp only [List.mem_cons, Prod.mk.injEq, ih tail hr]
        constructor
        · rintro (⟨h1, h2⟩ | ⟨h1, h2⟩)
          · subst h1 h2
            exact ⟨Or.inl rfl, hv⟩
          · exact ⟨Or.inr h1, h2⟩
        · rintro ⟨h1 | h1, h2⟩
          · subst h1
            rw [hv] at h2
            exact Or.inl ⟨rfl, (Option.some.inj h2).symm⟩
          · exact Or.inr ⟨h1, h2⟩

theorem encodeMembers_isSome (m : Fields) :
    ∀ (ks : List String), (∀ k ∈ ks, (encodeValue (index m k)).isSome = true) →
      ∃ members, encodeMembers m ks = some members := by
  intro ks
  induction ks with
  | nil => intro _; exact ⟨[], rfl⟩
  | cons k rest ih =>
    intro hall
    obtain ⟨tail, ht⟩ := ih (fun k' hk' => hall k' (List.mem_cons_of_mem _ hk'))
    have hk := hall k (List.mem_cons_self _ _)
    cases hv : encodeValue (index m k) with
    | none => simp [hv] at hk
    | some js => exact ⟨(k, js) :: tail, by simp [encodeMembers, hv, ht]⟩

theorem jsonMembers_sorted (m : Fields) (members : List (String × String))
    (hm : jsonMembers m = some members) : List.Sorted (· < ·) (members.map Prod.fst) := by
  unfold jsonMembers at hm
  rw [encodeMembers_keys m _ _ hm]
  exact sorted_sortKeys _ (nodup_mapKeys m)

theorem jsonMembers_key (m : Fields) (members : List (String × String))
    (hm : jsonMembers m = some members) (k : String) :
    k ∈ members.map Prod.fst ↔ (mapGet m k).isSome = true := by
  unfold jsonMembers at hm
  rw [encodeMembers_keys m _ _ hm, mem_sortKeys, mem_mapKeys]

theorem jsonMembers_mem (m : Fields) (members : List (String × String))
    (hm : jsonMembers m = some members) (k js : String) :
    (k, js) ∈ members ↔ ∃ v, mapGet m k = some v ∧ encodeValue v = some js := by
  unfold jsonMembers at hm
  rw [encodeMembers_mem m k js _ _ hm, mem_sortKeys, mem_mapKeys]
  unfold index
  cases hv : mapGet m k with
  | none => simp
  | some v => simp

theorem jsonMembers_isSome (m : Fields)
    (hall : ∀ k v, mapGet m k = some v → (encodeValue v).isSome = true) :
    ∃ members, jsonMembers m = some members := by
  unfold jsonMembers
  apply encodeMembers_isSome
  intro k hk
  rw [mem_sortKeys, mem_mapKeys] at hk
  unfold index
  cases hv : mapGet m k with
  | none => simp [hv] at hk
  | some v => simpa using hall k v hv

theorem getData_of_members (h : KinesisHook) (entry : Entry)
    (members : List (String × String))
    (hm : jsonMembers (getDataLoop h entry).data = some members) :
    getData h entry = renderObject members := by
  simp [getData, jsonMarshal, hm]

/-! ## Stream name and partition key -/

/-- C1: `getPartitionKey` returns the "partition_key" field when it is present
and a string (the empty string included); otherwise the hook's default
partition key when that is non-empty; otherwise the entry's message.  A field
value that is not a string (nil included) gives the same result as an entry
from which the field has been deleted. -/
theorem getPartitionKey_spec (h : KinesisHook) (entry : Entry) :
    (∀ s, mapGet entry.Data "partition_key" = some (Value.prim (Prim.str s)) →
      getPartitionKey h entry = s) ∧
    ((∀ s, mapGet entry.Data "partition_key" ≠ some (Value.prim (Prim.str s))) →
      h.defaultPartitionKey ≠ "" → getPartitionKey h entry = h.defaultPartitionKey) ∧
    ((∀ s, mapGet entry.Data "partition_key" ≠ some (Value.prim (Prim.str s))) →
      h.defaultPartitionKey = "" → getPartitionKey h entry = entry.Message) ∧
    (∀ v, (∀ s, v ≠ Value.prim (Prim.str s)) →
      getPartitionKey h { entry with Data := mapSet entry.Data "partition_key" v } =
        getPartitionKey h { entry with Data := mapDelete entry.Data "partition_key" }) := by
  have hnone : (∀ s, mapGet entry.Data "partition_key" ≠ some (Value.prim (Prim.str s))) →
      assertString (index entry.Data "partition_key") = none := by
    intro hne
    unfold index
    cases hg : mapGet entry.Data "partition_key" with
    | none => rfl
    | some v =>
      cases v with
      | prim p =>
        cases p with
        | str s => exact absurd hg (hne s)
        | null => rfl
        | int n => rfl
        | bool b => rfl
        | chan => rfl
      | named m u => rfl
  refine ⟨?_, ?_, ?_, ?_⟩
  · intro s hs
    simp [getPartitionKey, index, hs, assertString]
  · intro hne hd
    simp [getPartitionKey, hnone hne, hd]
  · intro hne hd
    simp [getPartitionKey, hnone hne, hd]
  · intro v hv
    have h1 : assertString (index (mapSet entry.Data "partition_key" v) "partition_key") = none := by
      simp only [index, mapSet, mapGet, if_true, Option.getD_some]
      cases v with
      | prim p =>
        cases p with
        | str s => exact absurd rfl (hv s)
        | null => rfl
        | int n => rfl
        | bool b => rfl
        | chan => rfl
      | named m u => rfl
    have h2 : assertString (index (mapDelete entry.Data "partition_key") "partition_key") = none := by
      simp [index, mapGet_mapDelete_self, assertString]
    simp only [getPartitionKey, h1, h2]

/-- Witness for C1 on rows of `TestPartitionKey`: an empty string field wins
over the default, the integer 99999 falls back to the default, and without a
default the message is used; an integer field behaves like a deleted one. -/
theorem getPartitionKey_spec_witness :
    getPartitionKey sampleHook
        { Message := "message_key", Data := [("partition_key", Value.prim (Prim.str ""))] } = "" ∧
    getPartitionKey sampleHook
        { Message := "message_key", Data := [("partition_key", Value.prim (Prim.int 99999))] }
      = "default_key" ∧
    getPartitionKey zeroHook
        { Message := "message_key", Data := [("partition_key", Value.prim Prim.null)] }
      = "message_key" ∧
    getPartitionKey sampleHook
        { Message := "message_key",
          Data := mapSet [("partition_key", Value.prim (Prim.str "entry_key"))]
            "partition_key" (Value.prim (Prim.int 99999)) }
      = getPartitionKey sampleHook
        { Message := "message_key",
          Data := mapDelete [("partition_key", Value.prim (Prim.str "entry_key"))]
            "partition_key" } :=
  ⟨(getPartitionKey_spec sampleHook
      { Message := "message_key", Data := [("partition_key", Value.prim (Prim.str ""))] }).1
      "" rfl,
   (getPartitionKey_spec sampleHook
      { Message := "message_key", Data := [("partition_key", Value.prim (Prim.int 99999))] }).2.1
      (by intro s hc; simp [mapGet] at hc) (by decide),
   (getPartitionKey_spec zeroHook
      { Message := "message_key", Data := [("partition_key", Value.prim Prim.null)] }).2.2.1
      (by intro s hc; simp [mapGet] at hc) rfl,
   (getPartitionKey_spec sampleHook
      { Message := "message_key",
        Data := [("partition_key", Value.prim (Prim.str "entry_key"))] }).2.2.2
      (Value.prim (Prim.int 99999)) (by intro s hc; cases hc)⟩

/-- C2: `getStreamName` returns the "stream_name" field when it is present and
a string (the empty string included), and the hook's default stream name when
the field is absent, nil, or of another type. -/
theorem getStreamName_spec (h : KinesisHook) (entry : Entry) :
    (∀ s, mapGet entry.Data "stream_name" = some (Value.prim (Prim.str s)) →
      getStreamName h entry = s) ∧
    (mapGet entry.Data "stream_name" = none → getStreamName h entry = h.defaultStreamName) ∧
    (mapGet entry.Data "stream_name" = some (Value.prim Prim.null) →
      getStreamName h entry = h.defaultStreamName) ∧
    (∀ v, mapGet entry.Data "stream_name" = some v → (∀ s, v ≠ Value.prim (Prim.str s)) →
      getStreamName h entry = h.defaultStreamName) := by
  have hother : ∀ v, mapGet entry.Data "stream_name" = some v →
      (∀ s, v ≠ Value.prim (Prim.str s)) → getStreamName h entry = h.defaultStreamName := by
    intro v hg hv
    have hnone : assertString (index entry.Data "stream_name") = none := by
      simp only [index, hg, Option.getD_some]
      cases v with
      | prim p =>
        cases p with
        | str s => exact absurd rfl (hv s)
        | null => rfl
        | int n => rfl
        | bool b => rfl
        | chan => rfl
      | named m u => rfl
    simp [getStreamName, hnone]
  refine ⟨?_, ?_, ?_, hother⟩
  · intro s hs
    simp [getStreamName, index, hs, assertString]
  · intro hg
    simp [getStreamName, index, hg, assertString]
  · intro hg
    exact hother _ hg (by intro s; simp)

/-- Witness for C2 on rows of `TestGetStreamName`: the empty string field
wins, a missing field, a nil field and the integer 99999 give the default. -/
theorem getStreamName_spec_witness :
    getStreamName sampleHook
        { Message := "", Data := [("stream_name", Value.prim (Prim.str ""))] } = "" ∧
    getStreamName sampleHook { Message := "", Data := [] } = "default_stream" ∧
    getStreamName sampleHook
        { Message := "", Data := [("stream_name", Value.prim Prim.null)] } = "default_stream" ∧
    getStreamName sampleHook
        { Message := "", Data := [("stream_name", Value.prim (Prim.int 99999))] }
      = "default_stream" :=
  ⟨(getStreamName_spec sampleHook
      { Message := "", Data := [("stream_name", Value.prim (Prim.str ""))] }).1 "" rfl,
   (getStreamName_spec sampleHook { Message := "", Data := [] }).2.1 rfl,
   (getStreamName_spec sampleHook
      { Message := "", Data := [("stream_name", Value.prim Prim.null)] }).2.2.1 rfl,
   (getStreamName_spec sampleHook
      { Message := "", Data := [("stream_name", Value.prim (Prim.int 99999))] }).2.2.2
      (Value.prim (Prim.int 99999)) rfl (by intro s hc; cases hc)⟩

/-! ## Default formatting -/

/-- C9: `formatData` dispatches on the first capability that matches, in the
order JSON marshaler, error, stringer: a marshaler is returned unchanged (also
when it is an error or a stringer as well); otherwise an error becomes the
string `Error()` (also when it is a stringer as well); otherwise a stringer
becomes the string `String()`; any other value is returned unchanged. -/
theorem formatData_dispatch (v : Value) :
    ((methodSet v).marshalJSON.isSome = true → formatData v = v) ∧
    (∀ s, (methodSet v).marshalJSON = none → (methodSet v).error = some s →
      formatData v = Value.prim (Prim.str s)) ∧
    (∀ s, (methodSet v).marshalJSON = none → (methodSet v).error = none →
      (methodSet v).string = some s → formatData v = Value.prim (Prim.str s)) ∧
    ((methodSet v).marshalJSON = none → (methodSet v).error = none →
      (methodSet v).string = none → formatData v = v) := by
  cases v with
  | prim p => simp [methodSet, formatData]
  | named m u =>
    refine ⟨?_, ?_, ?_, ?_⟩
    · intro hm
      cases hj : m.marshalJSON with
      | none => simp [methodSet, hj] at hm
      | some r => simp [formatData, hj]
    · intro s hj he
      simp only [methodSet] at hj he
      simp [formatData, hj, he]
    · intro s hj he hs
      simp only [methodSet] at hj he hs
      simp [formatData, hj, he, hs]
    · intro hj he hs
      simp only [methodSet] at hj he hs
      simp [formatData, hj, he, hs]

/-- Witness for C9: a value that is marshaler, error and stringer at once is
kept; an error that is also a stringer gives its `Error()` text; a stringer
gives its `String()` text; the integer 105 is kept. -/
theorem formatData_dispatch_witness :
    formatData
        (Value.named { marshalJSON := some (some "1"), error := some "boom", string := some "text" }
          Prim.null)
      = Value.named { marshalJSON := some (some "1"), error := some "boom", string := some "text" }
          Prim.null ∧
    formatData (Value.named { marshalJSON := none, error := some "boom", string := some "text" }
        Prim.null)
      = Value.prim (Prim.str "boom") ∧
    formatData (Value.named { marshalJSON := none, error := none, string := some "text" }
        (Prim.int 7))
      = Value.prim (Prim.str "text") ∧
    formatData (Value.prim (Prim.int 105)) = Value.prim (Prim.int 105) :=
  ⟨(formatData_dispatch _).1 rfl,
   (formatData_dispatch _).2.1 "boom" rfl rfl,
   (formatData_dispatch _).2.2.1 "text" rfl rfl rfl,
   (formatData_dispatch _).2.2.2 rfl rfl rfl⟩

/-! ## Firing -/

/-- C7: with the async flag set `Fire` returns no error, whatever the
put-record call does; with the flag not set `Fire` returns what `fire`
returns, which is the result of the one put-record call on the stream name,
partition key and payload of the entry, and starts no goroutine. -/
theorem Fire_error (putRecord : Kinesis → PutRecordInput → Option String)
    (h : KinesisHook) (entry : Entry) :
    (h.async = true → (Fire putRecord h entry).err = none) ∧
    (h.async = false →
      (Fire putRecord h entry).err = fire putRecord h entry ∧
      (Fire putRecord h entry).detached = [] ∧
      fire putRecord h entry =
        putRecord h.client
          { StreamName := getStreamName h entry
            PartitionKey := getPartitionKey h entry
            Data := getData h entry }) := by
  constructor
  · intro ha
    simp [Fire, ha]
  · intro ha
    simp [Fire, ha, fire]

/-- Witness for C7 with a put-record call that always fails: the synchronous
hook returns the failure, the asynchronous hook returns no error. -/
theorem Fire_error_witness :
    (Fire failingPut (Async sampleHook) appleEntry).err = none ∧
    (Fire failingPut sampleHook appleEntry).err = some "ResourceNotFoundException" :=
  ⟨(Fire_error failingPut (Async sampleHook) appleEntry).1 rfl,
   ((Fire_error failingPut sampleHook appleEntry).2 rfl).1.trans
     ((Fire_error failingPut sampleHook appleEntry).2 rfl).2.2⟩

/-! ## Configuration -/

/-- C6: `getRegion` returns the config's region when it is non-empty,
otherwise the value of `AWS_REGION` when that is non-empty, otherwise
"us-east-1"; the result is never the empty string. -/
theorem getRegion_spec (c : Config) (env : Env) :
    (c.Region ≠ "" → c.getRegion env = c.Region) ∧
    (c.Region = "" → env "AWS_REGION" ≠ "" → c.getRegion env = env "AWS_REGION") ∧
    (c.Region = "" → env "AWS_REGION" = "" → c.getRegion env = "us-east-1") ∧
    c.getRegion env ≠ "" := by
  refine ⟨?_, ?_, ?_, ?_⟩
  · intro hr
    simp [Config.getRegion, hr]
  · intro hr he
    simp [Config.getRegion, envRegion, hr, he]
  · intro hr he
    simp [Config.getRegion, envRegion, hr, he, defaultRegion]
  · unfold Config.getRegion envRegion
    by_cases hr : c.Region = ""
    · by_cases he : env "AWS_REGION" = ""
      · simp only [hr, he, ne_eq, not_true_eq_false, if_false, defaultRegion]
        decide
      · simp [hr, he]
    · simp [hr]

/-- Witness for C6 on the cases of `TestGetRegion`. -/
theorem getRegion_spec_witness :
    Config.getRegion { keyConfig with Region := "conf_region" } awsEnv = "conf_region" ∧
    Config.getRegion keyConfig awsEnv = "env_region" ∧
    Config.getRegion keyConfig clearEnv = "us-east-1" :=
  ⟨(getRegion_spec { keyConfig with Region := "conf_region" } awsEnv).1 (by decide),
   (getRegion_spec keyConfig awsEnv).2.1 rfl (by decide),
   (getRegion_spec keyConfig clearEnv).2.2.1 rfl rfl⟩

/-- C8 does not hold as stated: for a config with an access key and an empty
secret key, in an empty environment and without a shared credentials file,
none of the three sources validates, and `awsCredentials` still returns a
source, the shared credentials file, whose retrieval fails, which is what
`TestAWSCredentials` expects of its rows with an empty secret key. -/
theorem awsCredentials_counterexample :
    Config.awsCredentials { keyConfig with SecretKey := "" } clearEnv noSharedFile
      = Credentials.shared "" "" ∧
    validates (credentialsGet clearEnv noSharedFile
      (Config.awsCredentials { keyConfig with SecretKey := "" } clearEnv noSharedFile)) = false ∧
    (∀ src ∈ [Credentials.env, Credentials.static "access_key" "" "", Credentials.shared "" ""],
      validates (credentialsGet clearEnv noSharedFile src) = false) := by
  refine ⟨rfl, rfl, ?_⟩
  intro src hsrc
  simp only [List.mem_cons, List.mem_singleton, List.mem_nil_iff, or_false] at hsrc
  rcases hsrc with hsrc | hsrc | hsrc <;> (subst hsrc; rfl)

/-- C8 (amended): `awsCredentials` returns the environment source when it
validates, otherwise the static pair of the config when that validates,
otherwise the shared credentials file source, which is returned without
being validated.  With both credential variables set in the environment the
environment source is chosen whatever the config holds, and when the
environment source does not validate and both `AccessKey` and `SecretKey`
are set the result is the static source, whose retrieval gives exactly these
two values. -/
theorem awsCredentials_spec (c : Config) (env : Env)
    (sharedFile : String → String → Except String CredValue) :
    (validates (credentialsGet env sharedFile Credentials.env) = true →
      c.awsCredentials env sharedFile = Credentials.env) ∧
    (validates (credentialsGet env sharedFile Credentials.env) = false →
      validates (credentialsGet env sharedFile
        (Credentials.static c.AccessKey c.SecretKey "")) = true →
      c.awsCredentials env sharedFile = Credentials.static c.AccessKey c.SecretKey "") ∧
    (validates (credentialsGet env sharedFile Credentials.env) = false →
      validates (credentialsGet env sharedFile
        (Credentials.static c.AccessKey c.SecretKey "")) = false →
      c.awsCredentials env sharedFile = Credentials.shared "" "") ∧
    (env "AWS_ACCESS_KEY_ID" ≠ "" → env "AWS_SECRET_ACCESS_KEY" ≠ "" →
      c.awsCredentials env sharedFile = Credentials.env ∧
      credentialsGet env sharedFile (c.awsCredentials env sharedFile) =
        Except.ok
          { AccessKeyID := env "AWS_ACCESS_KEY_ID"
            SecretAccessKey := env "AWS_SECRET_ACCESS_KEY"
            SessionToken := env "AWS_SESSION_TOKEN"
            ProviderName := "EnvProvider" }) ∧
    (validates (credentialsGet env sharedFile Credentials.env) = false →
      c.AccessKey ≠ "" → c.SecretKey ≠ "" →
      c.awsCredentials env sharedFile = Credentials.static c.AccessKey c.SecretKey "" ∧
      credentialsGet env sharedFile (c.awsCredentials env sharedFile) =
        Except.ok
          { AccessKeyID := c.AccessKey
            SecretAccessKey := c.SecretKey
            SessionToken := ""
            ProviderName := "StaticProvider" }) := by
  have hEnv : validates (credentialsGet env sharedFile Credentials.env) = true →
      c.awsCredentials env sharedFile = Credentials.env := by
    intro hv
    cases hg : credentialsGet env sharedFile Credentials.env with
    | ok val => simp [Config.awsCredentials, hg]
    | error e => simp [hg, validates] at hv
  have hStatic : validates (credentialsGet env sharedFile Credentials.env) = false →
      validates (credentialsGet env sharedFile
        (Credentials.static c.AccessKey c.SecretKey "")) = true →
      c.awsCredentials env sharedFile = Credentials.static c.AccessKey c.SecretKey "" := by
    intro hv hs
    cases hg : credentialsGet env sharedFile Credentials.env with
    | ok val => simp [hg, validates] at hv
    | error e =>
      cases hg2 : credentialsGet env sharedFile
          (Credentials.static c.AccessKey c.SecretKey "") with
      | ok val => simp [Config.awsCredentials, hg, hg2]
      | error e2 => simp [hg2, validates] at hs
  refine ⟨hEnv, hStatic, ?_, ?_, ?_⟩
  · intro hv hs
    cases hg : credentialsGet env sharedFile Credentials.env with
    | ok val => simp [hg, validates] at hv
    | error e =>
      cases hg2 : credentialsGet env sharedFile
          (Credentials.static c.AccessKey c.SecretKey "") with
      | ok val => simp [hg2, validates] at hs
      | error e2 => simp [Config.awsCredentials, hg, hg2]
  · intro hid hsec
    have hget : credentialsGet env sharedFile Credentials.env =
        Except.ok
          { AccessKeyID := env "AWS_ACCESS_KEY_ID"
            SecretAccessKey := env "AWS_SECRET_ACCESS_KEY"
            SessionToken := env "AWS_SESSION_TOKEN"
            ProviderName := "EnvProvider" } := by
      simp [credentialsGet, envRetrieve, hid, hsec]
    have hres := hEnv (by rw [hget]; rfl)
    exact ⟨hres, by rw [hres, hget]⟩
  · intro hv hak hsk
    have hget : credentialsGet env sharedFile (Credentials.static c.AccessKey c.SecretKey "") =
        Except.ok
          { AccessKeyID := c.AccessKey
            SecretAccessKey := c.SecretKey
            SessionToken := ""
            ProviderName := "StaticProvider" } := by
      simp [credentialsGet, staticRetrieve, hak, hsk]
    have hres := hStatic hv (by rw [hget]; rfl)
    exact ⟨hres, by rw [hres, hget]⟩

/-- Witness for the amended C8 on rows of `TestAWSCredentials`: with the
credential variables set the environment source is returned although the
config carries a key pair; in an empty environment the static source with the
config's pair; with an empty access key the shared credentials file. -/
theorem awsCredentials_spec_witness :
    Config.awsCredentials keyConfig awsEnv noSharedFile = Credentials.env ∧
    (Config.awsCredentials keyConfig clearEnv noSharedFile
        = Credentials.static "access_key" "secret_key" "" ∧
      credentialsGet clearEnv noSharedFile
          (Config.awsCredentials keyConfig clearEnv noSharedFile) =
        Except.ok
          { AccessKeyID := "access_key"
            SecretAccessKey := "secret_key"
            SessionToken := ""
            ProviderName := "StaticProvider" }) ∧
    Config.awsCredentials { keyConfig with AccessKey := "" } clearEnv noSharedFile
      = Credentials.shared "" "" :=
  ⟨((awsCredentials_spec keyConfig awsEnv noSharedFile).2.2.2.1 (by decide) (by decide)).1,
   (awsCredentials_spec keyConfig clearEnv noSharedFile).2.2.2.2 rfl (by decide) (by decide),
   (awsCredentials_spec { keyConfig with AccessKey := "" } clearEnv noSharedFile).2.2.1 rfl rfl⟩

/-! ## Constructors -/

/-- C10 (evaluation): `NewWithAWSConfig "test_stream"` yields a hook whose
default stream name is the empty string, so `getStreamName` on an entry without
a "stream_name" field returns "" there, while the hook of `New "test_stream"`
returns "test_stream". -/
theorem NewWithAWSConfig_drops_name :
    ∃ h h' : KinesisHook,
      NewWithAWSConfig okSession "test_stream"
        (some { Credentials := none, Region := some "us-east-1", Endpoint := none })
        = Except.ok h ∧
      New okSession clearEnv noSharedFile "test_stream" keyConfig = Except.ok h' ∧
      h.defaultStreamName = "" ∧
      getStreamName h { Message := "entry_message", Data := [] } = "" ∧
      h'.defaultStreamName = "test_stream" ∧
      getStreamName h' { Message := "entry_message", Data := [] } = "test_stream" :=
  ⟨_, _, rfl, rfl, rfl, rfl, rfl, rfl⟩

/-! ## Lemmas on reading back what the encoder writes -/

theorem char_eq_ofNat (c : Char) (n : Nat) (hn : c.toNat = n) : c = Char.ofNat n := by
  rw [← hn, Char.ofNat_toNat]

theorem readChars_escapeRune_small :
    ∀ n, n < 64 → ∀ tail : List Char,
      readChars (escapeRune (Char.ofNat n) ++ tail) =
        (readChars tail).map (fun r => (Char.ofNat n :: r.1, r.2)) := by
  intro n hn tail
  interval_cases n <;> rfl

theorem readChars_escapeRune (c : Char) (tail : List Char) :
    readChars (escapeRune c ++ tail) = (readChars tail).map (fun r => (c :: r.1, r.2)) := by
  by_cases hsmall : c.toNat < 64
  · have hc := char_eq_ofNat c c.toNat rfl
    rw [hc]
    exact readChars_escapeRune_small c.toNat hsmall tail
  · by_cases h92 : c.toNat = 92
    · rw [char_eq_ofNat c 92 h92]
      rfl
    · by_cases h8232 : c.toNat = 8232
      · rw [char_eq_ofNat c 8232 h8232]
        rfl
      · by_cases h8233 : c.toNat = 8233
        · rw [char_eq_ofNat c 8233 h8233]
          rfl
        · have e1 : ¬ c.toNat = 34 := by omega
          have e2 : ¬ c.toNat = 8 := by omega
          have e3 : ¬ c.toNat = 12 := by omega
          have e4 : ¬ c.toNat = 10 := by omega
          have e5 : ¬ c.toNat = 13 := by omega
          have e6 : ¬ c.toNat = 9 := by omega
          have e7 : ¬ (c.toNat < 32 ∨ c.toNat = 60 ∨ c.toNat = 62 ∨ c.toNat = 38) := by omega
          have e8 : ¬ c.toNat < 32 := by omega
          have hesc : escapeRune c = [c] := by
            simp only [escapeRune, e1, h92, e2, e3, e4, e5, e6, e7, h8232, h8233, if_false]
          rw [hesc]
          show readChars (c :: tail) = _
          simp only [readChars, readCharsAux, e1, h92, e8, if_false]

theorem readChars_escaped (cs rest : List Char) :
    readChars ((cs.map escapeRune).flatten ++ dquote :: rest) = some (cs, rest) := by
  induction cs with
  | nil => rfl
  | cons c cs ih =>
    simp only [List.map_cons, List.flatten_cons, List.append_assoc]
    rw [readChars_escapeRune, ih]
    rfl

theorem digitChar_isDigit : ∀ m, m < 10 →
    isDigit09 (Nat.digitChar m) = true ∧ (Nat.digitChar m).toNat - 48 = m := by
  intro m hm
  interval_cases m <;> exact ⟨rfl, rfl⟩

theorem toDigitsCore_spec : ∀ (fuel n : Nat) (ds : List Char), n < fuel →
    Nat.toDigitsCore 10 fuel n ds = Nat.toDigitsCore 10 fuel n [] ++ ds ∧
    (∀ c ∈ Nat.toDigitsCore 10 fuel n [], isDigit09 c = true) ∧
    (Nat.toDigitsCore 10 fuel n []).foldl (fun a c => a * 10 + (c.toNat - 48)) 0 = n ∧
    Nat.toDigitsCore 10 fuel n [] ≠ [] := by
  intro fuel
  induction fuel with
  | zero => intro n ds hn; omega
  | succ fuel ih =>
    intro n ds hn
    have hd := digitChar_isDigit (n % 10) (Nat.mod_lt _ (by decide))
    by_cases hq : n / 10 = 0
    · have hn10 : n % 10 = n := by omega
      simp only [Nat.toDigitsCore, hq, if_true]
      refine ⟨rfl, ?_, ?_, by simp⟩
      · intro c hc
        simp only [List.mem_singleton] at hc
        rw [hc]
        exact hd.1
      · simp only [List.foldl_cons, List.foldl_nil, Nat.zero_mul, Nat.zero_add]
        rw [hd.2, hn10]
    · have hlt : n / 10 < fuel := by omega
      simp only [Nat.toDigitsCore, hq, if_false]
      obtain ⟨h1, h2, h3, h4⟩ := ih (n / 10) [Nat.digitChar (n % 10)] hlt
      have h1' := (ih (n / 10) (Nat.digitChar (n % 10) :: ds) hlt).1
      refine ⟨?_, ?_, ?_, ?_⟩
      · rw [h1', h1]
        simp
      · intro c hc
        rw [h1] at hc
        rcases List.mem_append.mp hc with hc | hc
        · exact h2 c hc
        · simp only [List.mem_singleton] at hc
          rw [hc]
          exact hd.1
      · rw [h1, List.foldl_append, h3]
        simp only [List.foldl_cons, List.foldl_nil]
        rw [hd.2]
        omega
      · rw [h1]
        simp

theorem readNat_digits : ∀ (ds : List Char) (acc : Nat) (rest : List Char),
    (∀ c ∈ ds, isDigit09 c = true) → (∀ c ∈ rest.head?, isDigit09 c = false) →
    readNat acc (ds ++ rest) = (ds.foldl (fun a c => a * 10 + (c.toNat - 48)) acc, rest) := by
  intro ds
  induction ds with
  | nil =>
    intro acc rest _ hrest
    cases rest with
    | nil => rfl
    | cons d rest' =>
      have hd : isDigit09 d = false := hrest d (by simp)
      simp [readNat, hd]
  | cons c ds ih =>
    intro acc rest hds hrest
    have hc : isDigit09 c = true := hds c (List.mem_cons_self _ _)
    simp only [List.cons_append, readNat, hc, if_true, List.foldl_cons]
    exact ih _ rest (fun x hx => hds x (List.mem_cons_of_mem _ hx)) hrest

theorem natRepr_spec (n : Nat) :
    ∃ d ds, (Nat.repr n).data = d :: ds ∧ (∀ c ∈ d :: ds, isDigit09 c = true) ∧
      (d :: ds).foldl (fun a c => a * 10 + (c.toNat - 48)) 0 = n := by
  obtain ⟨_, h2, h3, h4⟩ := toDigitsCore_spec (n + 1) n [] (Nat.lt_succ_self n)
  have hdata : (Nat.repr n).data = Nat.toDigitsCore 10 (n + 1) n [] := rfl
  cases hl : Nat.toDigitsCore 10 (n + 1) n [] with
  | nil => exact absurd hl h4
  | cons d ds =>
    rw [hl] at h2 h3
    exact ⟨d, ds, by rw [hdata, hl], h2, h3⟩

theorem isDigit09_bounds (c : Char) (hc : isDigit09 c = true) :
    48 ≤ c.toNat ∧ c.toNat ≤ 57 := by
  simpa [isDigit09] using hc

theorem readValue_int (n : Int) (rest : List Char)
    (hrest : ∀ c ∈ rest.head?, isDigit09 c = false) :
    readValue ((toString n).data ++ rest) = some (Value.prim (Prim.int n), rest) := by
  cases n with
  | ofNat m =>
    obtain ⟨d, ds, hdata, hdig, hval⟩ := natRepr_spec m
    have htext : (toString (Int.ofNat m)).data = d :: ds := hdata
    rw [htext]
    have hd := hdig d (List.mem_cons_self _ _)
    have hb := isDigit09_bounds d hd
    have e1 : ¬ d.toNat = 34 := by omega
    have e2 : ¬ d = '-' := by
      intro he
      rw [he] at hb
      revert hb
      decide
    have hread := readNat_digits (d :: ds) 0 rest hdig hrest
    rw [hval] at hread
    simp only [List.cons_append, readValue, e1, e2, hd, if_true, if_false]
    simp only [List.cons_append] at hread
    rw [hread]
    rfl
  | negSucc m =>
    obtain ⟨d, ds, hdata, hdig, hval⟩ := natRepr_spec (m + 1)
    have htext : (toString (Int.negSucc m)).data = '-' :: (d :: ds) := by
      show ("-" ++ Nat.repr (m + 1)).data = _
      rw [String.data_append, hdata]
      rfl
    rw [htext]
    have hd := hdig d (List.mem_cons_self _ _)
    have hread := readNat_digits (d :: ds) 0 rest hdig hrest
    rw [hval] at hread
    have e1 : ¬ ('-' : Char).toNat = 34 := by decide
    simp only [List.cons_append, readValue, e1, hd, if_true, if_false]
    simp only [List.cons_append] at hread
    rw [hread]
    rfl

theorem readValue_str (s : String) (rest : List Char) :
    readValue ((jsonString s).data ++ rest) = some (Value.prim (Prim.str s), rest) := by
  have htext : (jsonString s).data ++ rest
      = dquote :: ((s.data.map escapeRune).flatten ++ dquote :: rest) := by
    simp [jsonString, String.toList]
  rw [htext]
  have e1 : dquote.toNat = 34 := rfl
  simp only [readValue, e1, if_true, readChars_escaped]
  rfl

theorem readKey (k : String) (rest : List Char) :
    readChars ((jsonString k).data.tail ++ rest) = some (k.data, rest) := by
  have htext : (jsonString k).data.tail ++ rest
      = (k.data.map escapeRune).flatten ++ dquote :: rest := by
    simp [jsonString, String.toList]
  rw [htext, readChars_escaped]

theorem readValue_prim (v : Value) (js : String) (hv : isReadable v = true)
    (hjs : encodeValue v = some js) (rest : List Char)
    (hrest : ∀ c ∈ rest.head?, isDigit09 c = false) :
    readValue (js.data ++ rest) = some (v, rest) := by
  cases v with
  | named m u => simp [isReadable] at hv
  | prim p =>
    cases p with
    | chan => simp [isReadable] at hv
    | null =>
      simp only [encodeValue, encodePrim, Option.some.injEq] at hjs
      subst hjs
      rfl
    | str s =>
      simp only [encodeValue, encodePrim, Option.some.injEq] at hjs
      subst hjs
      exact readValue_str s rest
    | int n =>
      simp only [encodeValue, encodePrim, Option.some.injEq] at hjs
      subst hjs
      exact readValue_int n rest hrest
    | bool b =>
      simp only [encodeValue, encodePrim, Option.some.injEq] at hjs
      subst hjs
      cases b <;> rfl

theorem intercalate_go_data (sep : String) :
    ∀ (l : List String) (acc : String),
      (String.intercalate.go acc sep l).data
        = acc.data ++ (l.map (fun a => sep.data ++ a.data)).flatten := by
  intro l
  induction l with
  | nil => intro acc; simp [String.intercalate.go]
  | cons a rest ih =>
    intro acc
    simp only [String.intercalate.go, ih, String.data_append, List.map_cons,
      List.flatten_cons, List.append_assoc]

theorem renderMember_data (p : String × String) : (renderMember p).data = memberChars p := by
  simp only [renderMember, memberChars, String.data_append, List.append_assoc]
  rfl

theorem renderObject_data (members : List (String × String)) :
    (renderObject members).data = lbrace :: (bodyChars members ++ [rbrace]) := by
  cases members with
  | nil => rfl
  | cons m ms =>
    have hmap : List.map ((fun a => [','] ++ a.data) ∘ renderMember) ms
        = List.map (fun p => ',' :: memberChars p) ms := by
      apply List.map_congr_left
      intro p _
      simp [renderMember_data]
    simp only [renderObject, String.data_append, List.map_cons, String.intercalate,
      intercalate_go_data, renderMember_data, bodyChars, List.map_map, hmap]
    rfl

theorem jsonString_data (k : String) :
    (jsonString k).data = dquote :: ((k.data.map escapeRune).flatten ++ [dquote]) := by
  simp [jsonString, String.toList]

theorem bodyChars_cons_cons (m m' : String × String) (ms : List (String × String)) :
    bodyChars (m :: m' :: ms) = memberChars m ++ ',' :: bodyChars (m' :: ms) := by
  simp [bodyChars]

theorem readMembers_member (fuel : Nat) (m : String × String) (f : String × Value)
    (hmf : readsAs m f) (d : Char) (tail : List Char) (hd : isDigit09 d = false) :
    readMembers (fuel + 1) (memberChars m ++ d :: tail) =
      if d = ',' then (readMembers fuel tail).map (fun ms => f :: ms)
      else if d.toNat = 125 ∧ tail = [] then some [f]
      else none := by
  obtain ⟨k, js⟩ := m
  obtain ⟨k', v⟩ := f
  obtain ⟨hk, hread⟩ := hmf
  simp only at hk hread
  subst hk
  have htext : memberChars (k, js) ++ d :: tail
      = dquote :: ((k.data.map escapeRune).flatten ++ dquote :: (':' :: (js.data ++ d :: tail))) := by
    simp [memberChars, jsonString_data]
  have e1 : dquote.toNat = 34 := rfl
  have hv := hread (d :: tail) (by intro c hc; simp at hc; rw [← hc]; exact hd)
  rw [htext]
  simp only [readMembers, e1, if_true, readChars_escaped, hv]

theorem readMembers_body :
    ∀ (ms : List (String × String)) (fs : List (String × Value)) (fuel : Nat),
      List.Forall₂ readsAs ms fs → ms ≠ [] → ms.length ≤ fuel →
      readMembers fuel (bodyChars ms ++ [rbrace]) = some fs := by
  intro ms
  induction ms with
  | nil => intro fs fuel _ hne _; exact absurd rfl hne
  | cons m rest ih =>
    intro fs fuel hall _ hfuel
    cases hall with
    | cons hmf hrest =>
      rename_i f fs'
      cases fuel with
      | zero => simp at hfuel
      | succ fuel =>
        cases rest with
        | nil =>
          cases hrest
          have hbody : bodyChars [m] ++ [rbrace] = memberChars m ++ rbrace :: [] := by
            simp [bodyChars]
          rw [hbody, readMembers_member fuel m f hmf rbrace [] (by decide)]
          have e1 : ¬ rbrace = ',' := by decide
          have e2 : rbrace.toNat = 125 := rfl
          simp [e1, e2]
        | cons m' rest' =>
          have hbody : bodyChars (m :: m' :: rest') ++ [rbrace]
              = memberChars m ++ ',' :: (bodyChars (m' :: rest') ++ [rbrace]) := by
            rw [bodyChars_cons_cons]
            simp
          rw [hbody, readMembers_member fuel m f hmf ',' _ (by decide)]
          have hlen : (m' :: rest').length ≤ fuel := by
            simp only [List.length_cons] at hfuel ⊢
            omega
          rw [if_pos rfl, ih fs' fuel hrest (by simp) hlen]
          rfl

theorem bodyChars_length (ms : List (String × String)) :
    ms.length ≤ (bodyChars ms ++ [rbrace]).length := by
  induction ms with
  | nil => simp
  | cons m rest ih =>
    cases rest with
    | nil => simp
    | cons m' rest' =>
      rw [bodyChars_cons_cons]
      simp only [List.length_cons, List.append_assoc, List.length_append, List.cons_append] at ih ⊢
      omega

theorem readObject_renderObject (ms : List (String × String)) (fs : List (String × Value))
    (hall : List.Forall₂ readsAs ms fs) : readObject (renderObject ms) = some fs := by
  have hdata : (renderObject ms).toList = lbrace :: (bodyChars ms ++ [rbrace]) :=
    renderObject_data ms
  have e1 : lbrace.toNat = 123 := rfl
  unfold readObject
  rw [hdata]
  simp only [e1, if_true]
  cases ms with
  | nil =>
    cases hall
    rfl
  | cons m rest =>
    have hne : ¬ (bodyChars (m :: rest) ++ [rbrace] = [rbrace]) := by
      intro hc
      have hlen := congrArg List.length hc
      have hpos : 0 < (memberChars m).length := by
        simp [memberChars, jsonString_data]
      simp only [bodyChars, List.length_append, List.length_cons, List.length_nil] at hlen
      omega
    rw [if_neg hne]
    exact readMembers_body (m :: rest) fs _ hall (by simp) (bodyChars_length _)

theorem encodeMembers_readsAs (m : Fields) :
    ∀ (ks : List String) (members : List (String × String)),
      encodeMembers m ks = some members →
      (∀ k ∈ ks, isReadable (index m k) = true) →
      List.Forall₂ readsAs members (ks.map (fun k => (k, index m k))) := by
  intro ks
  induction ks with
  | nil =>
    intro members hm _
    simp only [encodeMembers, Option.some.injEq] at hm
    subst hm
    exact List.Forall₂.nil
  | cons k rest ih =>
    intro members hm hall
    unfold encodeMembers at hm
    cases hv : encodeValue (index m k) with
    | none => simp [hv] at hm
    | some js =>
      cases hr : encodeMembers m rest with
      | none => simp [hv, hr] at hm
      | some tail =>
        simp only [hv, hr, Option.some.injEq] at hm
        subst hm
        refine List.Forall₂.cons ⟨rfl, ?_⟩
          (ih tail hr (fun k' hk' => hall k' (List.mem_cons_of_mem _ hk')))
        intro rest' hrest'
        exact readValue_prim _ js (hall k (List.mem_cons_self _ _)) hv rest' hrest'

/-! ## The payload -/

theorem formatData_plain (v : Value) (hp : isPlain v = true) : formatData v = v := by
  cases v with
  | prim p => rfl
  | named m u => simp [isPlain] at hp

theorem encodeValue_plain (v : Value) (hp : isPlain v = true) :
    (encodeValue v).isSome = true := by
  cases v with
  | prim p =>
    cases p with
    | str s => rfl
    | int n => rfl
    | null => simp [isPlain] at hp
    | bool b => simp [isPlain] at hp
    | chan => simp [isPlain] at hp
  | named m u => simp [isPlain] at hp

theorem mapGet_ensureMessage_of_some (entry : Entry) (k : String) (v : Value)
    (hv : mapGet entry.Data k = some v) : mapGet (ensureMessage entry).Data k = some v := by
  rw [mapGet_ensureMessage]
  by_cases hk : k = "message"
  · subst hk
    simp [hv]
  · simp [hk, hv]

theorem getDataLoop_data_plain (h : KinesisHook) (entry : Entry)
    (hign : h.ignoreFields = []) (hfil : h.filters = [])
    (hplain : ∀ k v, mapGet entry.Data k = some v → isPlain v = true) (k : String) :
    mapGet (getDataLoop h entry).data k =
      if k = "message" then
        some ((mapGet entry.Data "message").getD (Value.prim (Prim.str entry.Message)))
      else mapGet entry.Data k := by
  have hall : ∀ v, mapGet (ensureMessage entry).Data k = some v → isPlain v = true := by
    intro v hv
    rw [mapGet_ensureMessage] at hv
    by_cases hk : k = "message"
    · simp only [hk, if_true, Option.some.injEq] at hv
      cases hm : mapGet entry.Data "message" with
      | none =>
        rw [hm] at hv
        subst hv
        rfl
      | some w =>
        rw [hm] at hv
        subst hv
        exact hplain _ _ hm
    · simp only [hk, if_false] at hv
      exact hplain k v hv
  rw [getDataLoop_data, ← mapGet_ensureMessage]
  cases hv : mapGet (ensureMessage entry).Data k with
  | none => rfl
  | some v =>
    simp [hign, hfil, mapGet, storedValue, formatData_plain v (hall v hv)]

/-- C3 does not hold as stated: with "message" in the ignore set the object
`getData` produces has no "message" member (here it is the empty object), and
with a field that cannot be encoded `getData` produces no object at all. -/
theorem getData_message_counterexample :
    (getData (AddIgnore zeroHook "message") bareEntry = "\x7b\x7d" ∧
      jsonMembers (getDataLoop (AddIgnore zeroHook "message") bareEntry).data = some [] ∧
      ¬ ∃ members,
          jsonMembers (getDataLoop (AddIgnore zeroHook "message") bareEntry).data = some members ∧
          "message" ∈ members.map Prod.fst) ∧
    (getData zeroHook chanEntry = "" ∧
      jsonMembers (getDataLoop zeroHook chanEntry).data = none) := by
  refine ⟨⟨by decide, by decide, ?_⟩, by decide, by decide⟩
  rintro ⟨members, hm, hmem⟩
  have h0 : jsonMembers (getDataLoop (AddIgnore zeroHook "message") bareEntry).data = some [] := by
    decide
  rw [h0] at hm
  cases hm
  simp at hmem

/-- C3 (amended): when "message" is not in the ignore set and marshalling the
fields succeeds, `getData` returns the text of a JSON object that has a
"message" member. -/
theorem getData_has_message (h : KinesisHook) (entry : Entry)
    (hign : mapGet h.ignoreFields "message" = none)
    (hok : (jsonMarshal (getDataLoop h entry).data).isSome = true) :
    ∃ members,
      jsonMembers (getDataLoop h entry).data = some members ∧
      getData h entry = renderObject members ∧
      "message" ∈ members.map Prod.fst := by
  cases hm : jsonMembers (getDataLoop h entry).data with
  | none => simp [jsonMarshal, hm] at hok
  | some members =>
    refine ⟨members, rfl, getData_of_members h entry members hm, ?_⟩
    rw [jsonMembers_key _ _ hm, getDataLoop_data, mapGet_ensureMessage]
    simp [hign]

/-- Witness for the amended C3 on a hook with rules for other fields. -/
theorem getData_has_message_witness :
    ∃ members,
      jsonMembers (getDataLoop ruleHook appleEntry).data = some members ∧
      getData ruleHook appleEntry = renderObject members ∧
      "message" ∈ members.map Prod.fst :=
  getData_has_message ruleHook appleEntry (by decide) (by decide)

theorem isReadable_of_isPlain (v : Value) (hp : isPlain v = true) : isReadable v = true := by
  cases v with
  | prim p =>
    cases p with
    | str s => rfl
    | int n => rfl
    | null => simp [isPlain] at hp
    | bool b => simp [isPlain] at hp
    | chan => simp [isPlain] at hp
  | named m u => simp [isPlain] at hp

/-- C4: for a hook without ignored fields and without filters and an entry
whose field values are strings and integers, `getData` returns the text of
the JSON object whose keys are the entry's field names and "message", in
increasing key order; "message" carries the entry's own "message" field when
there is one and the entry's message text otherwise, every other key carries
its field value.  The values are stated twice: as the encodings the members
hold, and as what reading the returned text back gives. -/
theorem getData_plain (h : KinesisHook) (entry : Entry)
    (hign : h.ignoreFields = []) (hfil : h.filters = [])
    (hplain : ∀ k v, mapGet entry.Data k = some v → isPlain v = true) :
    ∃ members fields,
      jsonMembers (getDataLoop h entry).data = some members ∧
      getData h entry = renderObject members ∧
      readObject (getData h entry) = some fields ∧
      members.map Prod.fst = fields.map Prod.fst ∧
      List.Sorted (· < ·) (fields.map Prod.fst) ∧
      (∀ k, k ∈ fields.map Prod.fst ↔ (k = "message" ∨ (mapGet entry.Data k).isSome = true)) ∧
      (∀ v, ("message", v) ∈ fields ↔
        v = (mapGet entry.Data "message").getD (Value.prim (Prim.str entry.Message))) ∧
      (∀ k v, k ≠ "message" → ((k, v) ∈ fields ↔ mapGet entry.Data k = some v)) ∧
      (∀ js, ("message", js) ∈ members ↔
        encodeValue ((mapGet entry.Data "message").getD (Value.prim (Prim.str entry.Message)))
          = some js) ∧
      (∀ k js, k ≠ "message" →
        ((k, js) ∈ members ↔ ∃ v, mapGet entry.Data k = some v ∧ encodeValue v = some js)) := by
  have hdata := getDataLoop_data_plain h entry hign hfil hplain
  have hpl : ∀ k v, mapGet (getDataLoop h entry).data k = some v → isPlain v = true := by
    intro k v hv
    rw [hdata k] at hv
    by_cases hk : k = "message"
    · simp only [hk, if_true, Option.some.injEq] at hv
      cases hm : mapGet entry.Data "message" with
      | none =>
        rw [hm] at hv
        subst hv
        rfl
      | some w =>
        rw [hm] at hv
        subst hv
        exact hplain _ _ hm
    · simp only [hk, if_false] at hv
      exact hplain k v hv
  have hsome : ∃ members, jsonMembers (getDataLoop h entry).data = some members := by
    apply jsonMembers_isSome
    intro k v hv
    exact encodeValue_plain v (hpl k v hv)
  obtain ⟨members, hm⟩ := hsome
  have hkeys : members.map Prod.fst = sortKeys (mapKeys (getDataLoop h entry).data) :=
    encodeMembers_keys _ _ _ hm
  have hreads := encodeMembers_readsAs (getDataLoop h entry).data
    (sortKeys (mapKeys (getDataLoop h entry).data)) members hm (by
      intro k hk
      rw [mem_sortKeys, mem_mapKeys] at hk
      unfold index
      cases hv : mapGet (getDataLoop h entry).data k with
      | none => simp [hv] at hk
      | some v => exact isReadable_of_isPlain v (hpl k v hv))
  have hget := getData_of_members h entry members hm
  have hfkeys : ((sortKeys (mapKeys (getDataLoop h entry).data)).map
      (fun k => (k, index (getDataLoop h entry).data k))).map Prod.fst
      = sortKeys (mapKeys (getDataLoop h entry).data) := by
    simp [List.map_map, Function.comp_def]
  have hfmem : ∀ k v, (k, v) ∈ (sortKeys (mapKeys (getDataLoop h entry).data)).map
      (fun k => (k, index (getDataLoop h entry).data k))
      ↔ mapGet (getDataLoop h entry).data k = some v := by
    intro k v
    simp only [List.mem_map, Prod.mk.injEq, mem_sortKeys, mem_mapKeys]
    constructor
    · rintro ⟨k', hk', rfl, rfl⟩
      unfold index
      cases hv : mapGet (getDataLoop h entry).data k' with
      | none => simp [hv] at hk'
      | some w => rfl
    · intro hv
      exact ⟨k, by simp [hv], rfl, by simp [index, hv]⟩
  refine ⟨members, (sortKeys (mapKeys (getDataLoop h entry).data)).map
    (fun k => (k, index (getDataLoop h entry).data k)), hm, hget, ?_, ?_, ?_, ?_, ?_, ?_, ?_, ?_⟩
  · rw [hget]
    exact readObject_renderObject members _ hreads
  · rw [hkeys, hfkeys]
  · rw [hfkeys, ← hkeys]
    exact jsonMembers_sorted _ _ hm
  · intro k
    rw [hfkeys, ← hkeys, jsonMembers_key _ _ hm, hdata k]
    by_cases hk : k = "message"
    · simp [hk]
    · simp [hk]
  · intro v
    rw [hfmem, hdata "message"]
    simp [eq_comm]
  · intro k v hk
    rw [hfmem, hdata k]
    simp [hk]
  · intro js
    rw [jsonMembers_mem _ _ hm, hdata "message"]
    simp
  · intro k js hk
    rw [jsonMembers_mem _ _ hm, hdata k]
    simp [hk]

/-- Witness for C4: the third row of `TestGetData`, with the returned text and
what reading it back gives. -/
theorem getData_plain_witness :
    (∃ members fields,
      jsonMembers (getDataLoop zeroHook appleEntry).data = some members ∧
      getData zeroHook appleEntry = renderObject members ∧
      readObject (getData zeroHook appleEntry) = some fields ∧
      members.map Prod.fst = fields.map Prod.fst ∧
      List.Sorted (· < ·) (fields.map Prod.fst) ∧
      (∀ k, k ∈ fields.map Prod.fst ↔
        (k = "message" ∨ (mapGet appleEntry.Data k).isSome = true)) ∧
      (∀ v, ("message", v) ∈ fields ↔
        v = (mapGet appleEntry.Data "message").getD (Value.prim (Prim.str appleEntry.Message))) ∧
      (∀ k v, k ≠ "message" → ((k, v) ∈ fields ↔ mapGet appleEntry.Data k = some v)) ∧
      (∀ js, ("message", js) ∈ members ↔
        encodeValue
            ((mapGet appleEntry.Data "message").getD (Value.prim (Prim.str appleEntry.Message)))
          = some js) ∧
      (∀ k js, k ≠ "message" →
        ((k, js) ∈ members ↔
          ∃ v, mapGet appleEntry.Data k = some v ∧ encodeValue v = some js))) ∧
    getData zeroHook appleEntry
      = "\x7b\"color\":\"red\",\"message\":\"entry_message\",\"name\":\"apple\",\"price\":105\x7d" ∧
    readObject (getData zeroHook appleEntry)
      = some [("color", Value.prim (Prim.str "red")),
              ("message", Value.prim (Prim.str "entry_message")),
              ("name", Value.prim (Prim.str "apple")),
              ("price", Value.prim (Prim.int 105))] :=
  ⟨getData_plain zeroHook appleEntry rfl rfl (by
      intro k v hv
      have hmem := mem_of_mapGet_eq_some _ _ _ hv
      simp only [appleEntry, List.mem_cons, Prod.mk.injEq, List.mem_nil_iff, or_false] at hmem
      rcases hmem with ⟨_, hv⟩ | ⟨_, hv⟩ | ⟨_, hv⟩ <;> (subst hv; rfl)),
   by decide, by decide⟩

theorem renderObject_ne_empty (members : List (String × String)) :
    renderObject members ≠ "" := by
  intro hc
  have hdata := congrArg String.data hc
  rw [renderObject_data] at hdata
  cases hdata

/-- C5 does not hold as stated: when marshalling fails `getData` returns the
empty payload, so a field with a filter and a field without any rule do not
appear in the output at all.  Here the entry has a field holding a channel
next to "name" (filtered, not ignored) and "color" (no rule). -/
theorem getData_precedence_counterexample :
    (mapGet chanAppleEntry.Data "name" = some (Value.prim (Prim.str "apple")) ∧
      mapGet ruleHook.ignoreFields "name" = none ∧
      (mapGet ruleHook.filters "name").isSome = true) ∧
    (mapGet chanAppleEntry.Data "color" = some (Value.prim (Prim.str "red")) ∧
      mapGet ruleHook.ignoreFields "color" = none ∧
      (mapGet ruleHook.filters "color").isNone = true) ∧
    jsonMarshal (getDataLoop ruleHook chanAppleEntry).data = none ∧
    getData ruleHook chanAppleEntry = "" ∧
    ∀ members, getData ruleHook chanAppleEntry ≠ renderObject members := by
  have hempty : getData ruleHook chanAppleEntry = "" := by decide
  refine ⟨⟨rfl, rfl, rfl⟩, ⟨rfl, rfl, rfl⟩, by decide, hempty, ?_⟩
  intro members hc
  rw [hempty] at hc
  exact renderObject_ne_empty members hc.symm

/-- C5 (amended): per field that the loop of `getData` ranges over (a field
of the entry, or the "message" field put in for an entry without one),
ignoring comes before filtering and filtering before default formatting.  A
field whose name is in the ignore set (whether or not a filter is registered
for it) is absent from the map `getData` marshals and from the returned
object, and no filter is applied to it.  A field with a filter and not
ignored carries the filter's result on the field value, a field with neither
carries `formatData` of the field value: in the map, and, when marshalling
succeeds, in the returned object, where a value of a predeclared type also
reads back as itself.  When marshalling fails `getData` returns the empty
payload. -/
theorem getData_precedence (h : KinesisHook) (entry : Entry) (k : String) (v : Value)
    (hv : mapGet entry.Data k = some v ∨
      (k = "message" ∧ mapGet entry.Data "message" = none ∧
        v = Value.prim (Prim.str entry.Message))) :
    ((mapGet h.ignoreFields k).isSome = true →
      mapGet (getDataLoop h entry).data k = none ∧
      (∀ arg, (k, arg) ∉ (getDataLoop h entry).calls) ∧
      (∀ members, jsonMembers (getDataLoop h entry).data = some members →
        getData h entry = renderObject members ∧ k ∉ members.map Prod.fst)) ∧
    (∀ fn, mapGet h.ignoreFields k = none → mapGet h.filters k = some fn →
      mapGet (getDataLoop h entry).data k = some (fn v) ∧
      (∀ members, jsonMembers (getDataLoop h entry).data = some members →
        getData h entry = renderObject members ∧
        (∀ js, (k, js) ∈ members ↔ encodeValue (fn v) = some js) ∧
        (isReadable (fn v) = true →
          ∀ js, (k, js) ∈ members → readValue js.data = some (fn v, [])))) ∧
    (mapGet h.ignoreFields k = none → mapGet h.filters k = none →
      mapGet (getDataLoop h entry).data k = some (formatData v) ∧
      (∀ members, jsonMembers (getDataLoop h entry).data = some members →
        getData h entry = renderObject members ∧
        (∀ js, (k, js) ∈ members ↔ encodeValue (formatData v) = some js) ∧
        (isReadable (formatData v) = true →
          ∀ js, (k, js) ∈ members → readValue js.data = some (formatData v, [])))) ∧
    (jsonMembers (getDataLoop h entry).data = none → getData h entry = "") := by
  have hv2 : mapGet (ensureMessage entry).Data k = some v := by
    rcases hv with hv | ⟨hk, hnone, hval⟩
    · exact mapGet_ensureMessage_of_some entry k v hv
    · rw [mapGet_ensureMessage, hk, hnone, hval]
      rfl
  have hdata := getDataLoop_data h entry k
  rw [hv2] at hdata
  have hstored : ∀ w, mapGet (getDataLoop h entry).data k = some w →
      ∀ members, jsonMembers (getDataLoop h entry).data = some members →
        getData h entry = renderObject members ∧
        (∀ js, (k, js) ∈ members ↔ encodeValue w = some js) ∧
        (isReadable w = true → ∀ js, (k, js) ∈ members → readValue js.data = some (w, [])) := by
    intro w hw members hm
    have hiff : ∀ js, (k, js) ∈ members ↔ encodeValue w = some js := by
      intro js
      rw [jsonMembers_mem _ _ hm, hw]
      simp
    refine ⟨getData_of_members h entry members hm, hiff, ?_⟩
    intro hr js hjs
    have hread := readValue_prim w js hr ((hiff js).mp hjs) [] (by simp)
    simpa using hread
  refine ⟨?_, ?_, ?_, ?_⟩
  · intro hi
    have hnone : mapGet (getDataLoop h entry).data k = none := by
      rw [hdata]
      simp [hi]
    refine ⟨hnone, ?_, ?_⟩
    · intro arg hc
      have hcall := (getDataLoop_calls h entry (k, arg) hc).1
      simp [hcall] at hi
    · intro members hm
      refine ⟨getData_of_members h entry members hm, ?_⟩
      intro hc
      rw [jsonMembers_key _ _ hm, hnone] at hc
      simp at hc
  · intro fn hi hf
    have hsome : mapGet (getDataLoop h entry).data k = some (fn v) := by
      rw [hdata]
      simp [hi, storedValue, hf]
    exact ⟨hsome, hstored (fn v) hsome⟩
  · intro hi hf
    have hsome : mapGet (getDataLoop h entry).data k = some (formatData v) := by
      rw [hdata]
      simp [hi, storedValue, hf]
    exact ⟨hsome, hstored (formatData v) hsome⟩
  · intro hnone
    simp [getData, jsonMarshal, hnone]

/-- Witness for the amended C5: "price" is ignored and filtered, "name" is
filtered, "color" has no rule, and the "message" field put in by `getData` is
formatted by default, or filtered when a filter is registered for "message";
the returned texts show the outcome. -/
theorem getData_precedence_witness :
    (mapGet (getDataLoop ruleHook appleEntry).data "price" = none ∧
      ∀ arg, ("price", arg) ∉ (getDataLoop ruleHook appleEntry).calls) ∧
    mapGet (getDataLoop ruleHook appleEntry).data "name" = some (Value.prim (Prim.str "***")) ∧
    mapGet (getDataLoop ruleHook appleEntry).data "color" = some (Value.prim (Prim.str "red")) ∧
    mapGet (getDataLoop ruleHook appleEntry).data "message"
      = some (Value.prim (Prim.str "entry_message")) ∧
    mapGet (getDataLoop (AddFilter zeroHook "message" maskFilter) bareEntry).data "message"
      = some (Value.prim (Prim.str "***")) ∧
    getData (AddFilter zeroHook "message" maskFilter) bareEntry = "\x7b\"message\":\"***\"\x7d" ∧
    getData ruleHook appleEntry
      = "\x7b\"color\":\"red\",\"message\":\"entry_message\",\"name\":\"***\"\x7d" :=
  ⟨⟨((getData_precedence ruleHook appleEntry "price" _ (Or.inl rfl)).1 rfl).1,
     ((getData_precedence ruleHook appleEntry "price" _ (Or.inl rfl)).1 rfl).2.1⟩,
   ((getData_precedence ruleHook appleEntry "name" _ (Or.inl rfl)).2.1 maskFilter rfl rfl).1,
   ((getData_precedence ruleHook appleEntry "color" _ (Or.inl rfl)).2.2.1 rfl rfl).1,
   ((getData_precedence ruleHook appleEntry "message" _ (Or.inr ⟨rfl, rfl, rfl⟩)).2.2.1 rfl rfl).1,
   ((getData_precedence (AddFilter zeroHook "message" maskFilter) bareEntry "message" _
      (Or.inr ⟨rfl, rfl, rfl⟩)).2.1 maskFilter rfl rfl).1,
   by decide, by decide⟩

end LogrusKinesis
